import Mathlib

/-!
# Verification of regalloc2's `IntSet` and `CFGInfo` intake analyses

This file gives a shallow embedding, in Lean 4, of two components of the
regalloc2 register allocator:

* `src/set.rs`: the hybrid integer set `IntSet` (modes `Empty`, `Small`
  (dense bitvector), `Unsorted`, `Sorted`), together with its operations
  `add`, `remove`, `contains`, `clear`, `merge`, `sort` and the sequence
  yielded by `iter()`.
* `src/cfg.rs`: the intake analysis `CFGInfo::new`, i.e. the critical-edge
  and branch-argument checks, the `pred_pos` table, the approximate loop
  depth computation and the loop-depth transition points.

Rust `usize`/`u32` values are modelled as `Nat` (the claims under study
quantify over values far below `u32::MAX`, where the two agree), Rust
vectors as `List`, and early returns as `Except`.  The dense bitvector
type `BitVec` of `bitvec.rs` is not part of the sources under study and is
modelled from the spec (see `bvSet` and friends below).
-/

/-! ## Dense bitvector, modelled from the spec

Modelled from the spec: the file `bitvec.rs` (type `BitVec`, the backing
store of `IntSet::Small`) is not among the sources under study.  The spec
describes it as a "simple bitvector: bit set for every present integer"
(dense mode of the hybrid set, §6.4), whose `or` reports whether any
element was newly added and whose iterator yields the indices of the set
bits in increasing order.  We model it as a `List Bool` of bits. -/

/-- Modelled from the spec: pad a bit list with `false` up to length `n`. -/
def padTo (bv : List Bool) (n : Nat) : List Bool :=
  bv ++ List.replicate (n - bv.length) false

/-- Modelled from the spec: `BitVec::set(idx, b)`.  Setting a bit grows the
bit list as needed; clearing a bit out of range is a no-op. -/
def bvSet (bv : List Bool) (idx : Nat) (b : Bool) : List Bool :=
  if b then (padTo bv (idx + 1)).set idx true
  else bv.set idx false

/-- Modelled from the spec: `BitVec::get(idx)`; bits out of range read as
`false`. -/
def bvGet (bv : List Bool) (idx : Nat) : Bool :=
  bv.getD idx false

/-- Modelled from the spec: the sequence yielded by `BitVec::iter()` — the
indices of the set bits, in increasing order. -/
def bvIter (bv : List Bool) : List Nat :=
  (List.range bv.length).filter (fun i => bvGet bv i)

/-- Modelled from the spec: the bits of `BitVec::or` (pointwise or). -/
def bvOrBits : List Bool → List Bool → List Bool
  | [], ys => ys
  | x :: xs, ys =>
    match ys with
    | [] => x :: xs
    | y :: ys => (x || y) :: bvOrBits xs ys

/-- Modelled from the spec: the `changed` result of `BitVec::or` — true iff
some bit of `other` was not already set in `bv`. -/
def bvOrChanged (bv other : List Bool) : Bool :=
  (List.range other.length).any (fun i => bvGet other i && ! bvGet bv i)

/-- Modelled from the spec: `BitVec::or(other)`, returning the new bits and
whether `bv` changed. -/
def bvOr (bv other : List Bool) : List Bool × Bool :=
  (bvOrBits bv other, bvOrChanged bv other)

/-! ## `IntSet` (from `src/set.rs`) -/

/-- `SPARSE_THRESHOLD` from `set.rs`: any index ≥ this switches to sparse
(list) mode. -/
def SPARSE_THRESHOLD : Nat := 512

/-- `SORT_THRESHOLD` from `set.rs`: an unsorted list at least this long is
sorted before probing. -/
def SORT_THRESHOLD : Nat := 16

/-- The `IntSet` enum from `set.rs`: a hybrid set of integers. -/
inductive IntSet where
  /-- Empty. -/
  | Empty : IntSet
  /-- Simple bitvector: bit set for every present integer. -/
  | Small (bv : List Bool) : IntSet
  /-- Unsorted list of integers, possibly with duplicates. -/
  | Unsorted (list : List Nat) : IntSet
  /-- Sorted list of integers, with all duplicates removed. -/
  | Sorted (list : List Nat) : IntSet
deriving DecidableEq

/-- The helper `remove_dups` from `set.rs` compacts a list in place,
keeping an element exactly when it differs from the previous one (`last`).
`remove_dups_go` is its loop, with `last` made explicit. -/
def remove_dups_go (last : Option Nat) : List Nat → List Nat
  | [] => []
  | x :: xs =>
    if some x = last then remove_dups_go (some x) xs
    else x :: remove_dups_go (some x) xs

/-- `remove_dups` from `set.rs` (the loop starts with `last = None`). -/
def remove_dups (l : List Nat) : List Nat :=
  remove_dups_go none l

/-- `IntSet::new()`. -/
def IntSet.new : IntSet := .Empty

/-- `IntSet::clear()`: `*self = Empty`. -/
def IntSet.clear (_s : IntSet) : IntSet := .Empty

/-- `IntSet::is_empty()`. -/
def IntSet.is_empty : IntSet → Bool
  | .Empty => true
  | .Small bv => (bvIter bv).isEmpty
  | .Unsorted l => l.isEmpty
  | .Sorted l => l.isEmpty

/-- `IntSet::add(val)`.  (`u32::try_from(val)` never fails for the values
considered here; `Nat` needs no truncation.) -/
def IntSet.add (s : IntSet) (val : Nat) : IntSet :=
  match s with
  | .Empty =>
    if val ≥ SPARSE_THRESHOLD then .Sorted [val]
    else .Small (bvSet [] val true)
  | .Small bv =>
    if val ≥ SPARSE_THRESHOLD then .Unsorted (bvIter bv ++ [val])
    else .Small (bvSet bv val true)
  | .Unsorted l => .Unsorted (l ++ [val])
  | .Sorted l => .Unsorted (l ++ [val])

/-- `IntSet::remove(val)`.  On a `Sorted` list the source does a
`binary_search` followed by `remove(idx)`; on the sorted duplicate-free
lists the `Sorted` mode maintains (see `IntSet.wf`), this removes exactly
the occurrence of `val`, i.e. it is `List.erase`. -/
def IntSet.remove (s : IntSet) (val : Nat) : IntSet :=
  match s with
  | .Empty => .Empty
  | .Small bv => .Small (bvSet bv val false)
  | .Unsorted l => .Unsorted (l.filter (fun e => e ≠ val))
  | .Sorted l => .Sorted (l.erase val)

/-- `IntSet::sort()`: sort an unsorted list (`slice::sort` produces the
sorted permutation; on plain numbers stability is invisible, so any
correct sort gives the same list) and remove duplicates. -/
def IntSet.sort (s : IntSet) : IntSet :=
  match s with
  | .Unsorted l => .Sorted (remove_dups (List.insertionSort (· ≤ ·) l))
  | x => x

/-- `IntSet::contains(val)`.  The receiver is `&mut self`: probing an
unsorted list of length ≥ `SORT_THRESHOLD` first sorts it, so we return
the (possibly re-sorted) set together with the answer.  On a `Sorted` list
the source probes with `binary_search(...).is_ok()`, which on the sorted
duplicate-free lists the mode maintains is exactly membership. -/
def IntSet.contains (s : IntSet) (val : Nat) : IntSet × Bool :=
  let s' :=
    match s with
    | .Unsorted l =>
      if l.length ≥ SORT_THRESHOLD then IntSet.sort (.Unsorted l) else .Unsorted l
    | x => x
  (s',
    match s' with
    | .Empty => false
    | .Small bv => bvGet bv val
    | .Unsorted l => l.any (fun e => e == val)
    | .Sorted l => l.contains val)

/-- The sorted-list merge loop of `IntSet::merge` (the `(Sorted, Sorted)`
arm), with explicit fuel so that it reduces in the kernel: each iteration
of the source loop consumes at least one element, so fuel
`l1.length + l2.length` suffices (see `mergeSortedLists`). -/
def msGo : Nat → List Nat → List Nat → List Nat × Bool
  | _, l1, [] => (l1, false)
  | _, [], l2 => (l2, true)
  | 0, l1, _ => (l1, false)
  | n + 1, x :: xs, y :: ys =>
    if x = y then
      let (m, c) := msGo n xs ys
      (x :: m, c)
    else if x < y then
      let (m, c) := msGo n xs (y :: ys)
      (x :: m, c)
    else
      let (m, _) := msGo n (x :: xs) ys
      (y :: m, true)

/-- The `(Sorted, Sorted)` arm of `IntSet::merge`: merge two sorted lists,
reporting whether any element of the second was missing from the first. -/
def mergeSortedLists (l1 l2 : List Nat) : List Nat × Bool :=
  msGo (l1.length + l2.length) l1 l2

/-- `IntSet::merge(&mut other)`: mutate `self` to the union, report
whether any value was actually added.  Both sides are sorted first, so the
`Unsorted` arms of the source `match` are `unreachable!()`; we give them
an arbitrary harmless result.  Returns (new self, new other, changed). -/
def IntSet.merge (s other : IntSet) : IntSet × IntSet × Bool :=
  let s := s.sort
  let other := other.sort
  match s, other with
  | .Unsorted l, o => (.Unsorted l, o, false)
  | x, .Unsorted l => (x, .Unsorted l, false)
  | x, .Empty => (x, .Empty, false)
  | .Empty, o => (o, o, !o.is_empty)
  | .Small bv, .Small bv2 =>
    let (bv', ch) := bvOr bv bv2
    (.Small bv', .Small bv2, ch)
  | .Small bv, .Sorted l =>
    (.Unsorted (l ++ bvIter bv), .Sorted l, l.any (fun e => ! bvGet bv e))
  | .Sorted l, .Small bv =>
    (.Unsorted (l ++ (bvIter bv).filter (fun i => ! l.contains i)), .Small bv,
      !((bvIter bv).filter (fun i => ! l.contains i)).isEmpty)
  | .Sorted l1, .Sorted l2 =>
    let (m, ch) := mergeSortedLists l1 l2
    (.Sorted m, .Sorted l2, ch)

/-- The full sequence yielded by `IntSet::iter()` / `SetIter::next()`:
slice modes yield the list elements in order, the bitvector mode yields
the set bits in increasing order. -/
def IntSet.iter : IntSet → List Nat
  | .Empty => []
  | .Small bv => bvIter bv
  | .Unsorted l => l
  | .Sorted l => l

/-- Boolean strict-sortedness of a list. -/
def strictSorted : List Nat → Bool
  | [] => true
  | [_] => true
  | x :: y :: rest => decide (x < y) && strictSorted (y :: rest)

/-- Representation invariant of `IntSet`: a `Sorted` list is strictly
sorted (sorted with all duplicates removed).  Every set reachable through
the API satisfies it (see the preservation lemmas below). -/
def IntSet.wf : IntSet → Bool
  | .Sorted l => strictSorted l
  | _ => true

/-- Is the set in `Unsorted` mode? -/
def IntSet.isUnsortedMode : IntSet → Bool
  | .Unsorted _ => true
  | _ => false

/-! ## The `IntSet` fuzz-oracle actions (from `fuzz/fuzz_targets/set.rs`) -/

/-- The `SetAction` enum of the `IntSet` fuzz harness. -/
inductive SetAction where
  | AddLeft (v : Nat)
  | AddRight (v : Nat)
  | RemoveLeft (v : Nat)
  | RemoveRight (v : Nat)
  | LeftContains (v : Nat)
  | RightContains (v : Nat)
  | ClearLeft
  | ClearRight
  | MergeLeftToRight
  | MergeRightToLeft
deriving DecidableEq

/-- Values carried by an action are `u16` in the fuzz harness. -/
def SetAction.bounded : SetAction → Prop
  | .AddLeft v | .AddRight v | .RemoveLeft v | .RemoveRight v
  | .LeftContains v | .RightContains v => v < 65536
  | _ => True

instance : DecidablePred SetAction.bounded := by
  intro a
  cases a <;> simp only [SetAction.bounded] <;> infer_instance

/-- One step of the fuzz harness on the implementation side: the pair of
`IntSet`s, returning the new state and the observation the harness makes
(the boolean checked against the oracle), if any.  Mirrors the `match` in
`fuzz_targets/set.rs` (removal observes `contains` first, then removes;
`MergeLeftToRight` runs `right.merge(&mut left)`). -/
def implStep : IntSet × IntSet → SetAction → (IntSet × IntSet) × Option Bool
  | (l, r), .AddLeft v => ((l.add v, r), none)
  | (l, r), .AddRight v => ((l, r.add v), none)
  | (l, r), .RemoveLeft v =>
    let (l1, y) := l.contains v
    ((l1.remove v, r), some y)
  | (l, r), .RemoveRight v =>
    let (r1, y) := r.contains v
    ((l, r1.remove v), some y)
  | (l, r), .LeftContains v =>
    let (l1, y) := l.contains v
    ((l1, r), some y)
  | (l, r), .RightContains v =>
    let (r1, y) := r.contains v
    ((l, r1), some y)
  | (_, r), .ClearLeft => ((.Empty, r), none)
  | (l, _), .ClearRight => ((l, .Empty), none)
  | (l, r), .MergeLeftToRight =>
    let (r1, l1, ch) := r.merge l
    ((l1, r1), some ch)
  | (l, r), .MergeRightToLeft =>
    let (l1, r1, ch) := l.merge r
    ((l1, r1), some ch)

/-- One step of the naive finite-set oracle of the fuzz harness
(`HashSet` there, `Finset Nat` here), with the same observations. -/
def modelStep : Finset Nat × Finset Nat → SetAction → (Finset Nat × Finset Nat) × Option Bool
  | (l, r), .AddLeft v => ((insert v l, r), none)
  | (l, r), .AddRight v => ((l, insert v r), none)
  | (l, r), .RemoveLeft v => ((l.erase v, r), some (decide (v ∈ l)))
  | (l, r), .RemoveRight v => ((l, r.erase v), some (decide (v ∈ r)))
  | (l, r), .LeftContains v => ((l, r), some (decide (v ∈ l)))
  | (l, r), .RightContains v => ((l, r), some (decide (v ∈ r)))
  | (_, r), .ClearLeft => ((∅, r), none)
  | (l, _), .ClearRight => ((l, ∅), none)
  | (l, r), .MergeLeftToRight => ((l, r ∪ l), some (decide (¬ l ⊆ r)))
  | (l, r), .MergeRightToLeft => ((l ∪ r, r), some (decide (¬ r ⊆ l)))

/-- Run the implementation over an action sequence, collecting the
observation trace. -/
def runImpl : IntSet × IntSet → List SetAction → (IntSet × IntSet) × List (Option Bool)
  | st, [] => (st, [])
  | st, a :: rest =>
    let (st', ob) := implStep st a
    let (stf, obs) := runImpl st' rest
    (stf, ob :: obs)

/-- Run the naive model over an action sequence, collecting the
observation trace. -/
def runModel : Finset Nat × Finset Nat → List SetAction → (Finset Nat × Finset Nat) × List (Option Bool)
  | st, [] => (st, [])
  | st, a :: rest =>
    let (st', ob) := modelStep st a
    let (stf, obs) := runModel st' rest
    (stf, ob :: obs)

/-- Sort the yielded sequence and remove duplicates, as the fuzz harness's
`assert_set_eq` does before comparing with the oracle. -/
def canon (l : List Nat) : List Nat :=
  (List.insertionSort (· ≤ ·) l).dedup

/-! ## CFG intake analysis (from `src/cfg.rs`) -/

/-- Instruction phase of a program point (`InstPosition` in the source). -/
inductive Phase where
  | Before : Phase
  | After : Phase
deriving DecidableEq, Inhabited

/-- A `ProgPoint` is an instruction index together with a phase, ordered
lexicographically. -/
structure ProgPoint where
  inst : Nat
  phase : Phase
deriving DecidableEq, Inhabited

/-- `ProgPoint::before(inst)`. -/
def ProgPoint.before (i : Nat) : ProgPoint := ⟨i, .Before⟩

/-- `ProgPoint::after(inst)`. -/
def ProgPoint.after (i : Nat) : ProgPoint := ⟨i, .After⟩

/-- The two intake errors `CFGInfo::new` can produce.  (The remaining
variants of `RegAllocError` are raised elsewhere, outside the code under
study.) -/
inductive RegAllocError where
  | CritEdge (pred block : Nat) : RegAllocError
  | DisallowedBranchArg (inst : Nat) : RegAllocError
deriving DecidableEq

/-- The queries of the `Function` trait that `CFGInfo::new`'s checks and
loop analysis consume.  Blocks and instructions are their indices;
`block_first`/`block_last` are `block_insns(b).first()` and
`block_insns(b).last()`.  The remaining trait queries (operands, block
params, clobbers, …) feed only the bookkeeping tables (`insn_block`,
`vreg_def_inst`, `vreg_def_blockparam`) which no claim under study
consults and which cannot raise an error, so they are not modelled. -/
structure Func where
  blocks : Nat
  entry_block : Nat
  block_preds : Nat → List Nat
  block_succs : Nat → List Nat
  block_first : Nat → Nat
  block_last : Nat → Nat
  branch_blockparam_arg_offset : Nat → Nat → Nat

/-- Read a `Vec<usize>` cell (out-of-range reads default to 0; all reads
performed by the code are in range for in-range block indices). -/
def nth (l : List Nat) (i : Nat) : Nat := l.getD i 0

/-- Increment a `Vec` cell in place. -/
def listIncr (l : List Nat) (i : Nat) : List Nat := l.set i (nth l i + 1)

/-- The predecessor count used by both intake checks: the entry block
counts one extra virtual predecessor. -/
def predCount (f : Func) (b : Nat) : Nat :=
  (f.block_preds b).length + (if b = f.entry_block then 1 else 0)

/-- The inner loop of the critical-edge check: walk `block_preds b` with
its enumeration index `i`, returning `CritEdge` at the first predecessor
with more than one successor and otherwise recording `pred_pos[pred] = i`. -/
def critEdgeGo (f : Func) (b : Nat) : Nat → List Nat → List Nat → Except RegAllocError (List Nat)
  | _, [], pp => .ok pp
  | i, p :: rest, pp =>
    if (f.block_succs p).length > 1 then .error (.CritEdge p b)
    else critEdgeGo f b (i + 1) rest (pp.set p i)

/-- The backedge-counting loop at the end of each block scan:
`backedge_in[succ] += 1; backedge_out[block] += 1` for every successor with
index ≤ the block's own index. -/
def countBackedges (b : Nat) : List Nat → List Nat → List Nat → List Nat × List Nat
  | [], bin, bout => (bin, bout)
  | s :: rest, bin, bout =>
    if s ≤ b then countBackedges b rest (listIncr bin s) (listIncr bout b)
    else countBackedges b rest bin bout

/-- The body of the per-block scan of `CFGInfo::new`: critical-edge check
(updating `pred_pos`), branch-argument check, backedge counting. -/
def blockStep (f : Func) (st : List Nat × List Nat × List Nat) (b : Nat) :
    Except RegAllocError (List Nat × List Nat × List Nat) :=
  let (pp, bin, bout) := st
  match (if predCount f b > 1 then critEdgeGo f b 0 (f.block_preds b) pp else .ok pp) with
  | .error e => .error e
  | .ok pp =>
    if ((f.block_succs b).any (fun s => predCount f s > 1)) ∧
        f.branch_blockparam_arg_offset b (f.block_last b) > 0 then
      .error (.DisallowedBranchArg (f.block_last b))
    else
      let (bin, bout) := countBackedges b (f.block_succs b) bin bout
      .ok (pp, bin, bout)

/-- The per-block scan of `CFGInfo::new` over a list of block indices. -/
def blocksLoop (f : Func) : List Nat → (List Nat × List Nat × List Nat) →
    Except RegAllocError (List Nat × List Nat × List Nat)
  | [], st => .ok st
  | b :: rest, st =>
    match blockStep f st b with
    | .error e => .error e
    | .ok st' => blocksLoop f rest st'

/-- The while loop inside the loop-depth scan.  `backedge_out[block]` is
decremented on every iteration, so its current value bounds the number of
iterations and serves as structural fuel: pass fuel `outb` to run
`while stack nonempty ∧ out > 0 { out -= 1; top -= 1; if top = 0 { pop;
depth -= 1 } }`.  Returns the new stack and depth. -/
def drainBackedges : Nat → List Nat → Nat → List Nat × Nat
  | 0, stack, d => (stack, d)
  | _ + 1, [], d => ([], d)
  | n + 1, t :: rest, d =>
    if t - 1 = 0 then drainBackedges n rest (d - 1)
    else drainBackedges n ((t - 1) :: rest) d

/-- The loop-depth scan of `CFGInfo::new`, over the per-block pairs
`(backedge_in[b], backedge_out[b])`: push on entering a backedge target,
record the current depth, then consume outgoing backedges. -/
def loopDepthGo : List (Nat × Nat) → List Nat → Nat → List Nat
  | [], _, _ => []
  | (inb, outb) :: rest, stack, d =>
    let (stack, d) := if inb > 0 then (inb :: stack, d + 1) else (stack, d)
    let (stack', d') := drainBackedges outb stack d
    d :: loopDepthGo rest stack' d'

/-- The loop-transition scan of `CFGInfo::new`: push `block_entry[block]`
whenever the depth strictly exceeds `last_depth`. -/
def loopTransGo : Nat → List (Nat × ProgPoint) → List ProgPoint
  | _, [] => []
  | last, (d, e) :: rest =>
    if d > last then e :: loopTransGo d rest else loopTransGo d rest

/-- The result fields of `CFGInfo::new` under study.  The `postorder`,
`domtree`, `insn_block`, `vreg_def_inst` and `vreg_def_blockparam` fields
are computed by code outside the sources under study (`postorder.rs`,
`domtree.rs`) or are pure bookkeeping no claim consults, and none of them
can produce an intake error; they are omitted. -/
structure CFGInfo where
  block_entry : List ProgPoint
  block_exit : List ProgPoint
  pred_pos : List Nat
  approx_loop_depth : List Nat
  loop_transition_points : List ProgPoint
deriving DecidableEq

/-- `CFGInfo::new`.  The loop-transition computation starts by reading
`approx_loop_depth[0]`, which is out of bounds when the function has no
blocks; `Except.ok none` models that out-of-bounds access (a Rust index
check failure), `Except.ok (some info)` a normal successful return. -/
def CFGInfo.new (f : Func) : Except RegAllocError (Option CFGInfo) :=
  match blocksLoop f (List.range f.blocks)
      (List.replicate f.blocks 0, List.replicate f.blocks 0, List.replicate f.blocks 0) with
  | .error e => .error e
  | .ok (pp, bin, bout) =>
    let entries := (List.range f.blocks).map (fun b => ProgPoint.before (f.block_first b))
    let exits := (List.range f.blocks).map (fun b => ProgPoint.after (f.block_last b))
    let depths := loopDepthGo (bin.zip bout) [] 0
    match depths with
    | [] => .ok none
    | d0 :: _ =>
      .ok (some { block_entry := entries, block_exit := exits, pred_pos := pp,
                  approx_loop_depth := depths,
                  loop_transition_points := loopTransGo d0 (depths.zip entries) })

/-- `CFGInfo::pred_position(block)`: `pred_pos[block.index()]`. -/
def CFGInfo.pred_position (info : CFGInfo) (b : Nat) : Nat :=
  nth info.pred_pos b

/-- Decidable equality of `Except` results, so that concrete runs of
`CFGInfo.new` can be checked by `decide`. -/
instance exceptDecEq {e a : Type} [DecidableEq e] [DecidableEq a] :
    DecidableEq (Except e a) := fun x y =>
  match x, y with
  | .error e1, .error e2 =>
    if h : e1 = e2 then isTrue (by rw [h]) else isFalse (fun hh => h (Except.error.inj hh))
  | .error _, .ok _ => isFalse (fun hh => Except.noConfusion hh)
  | .ok _, .error _ => isFalse (fun hh => Except.noConfusion hh)
  | .ok a1, .ok a2 =>
    if h : a1 = a2 then isTrue (by rw [h]) else isFalse (fun hh => h (Except.ok.inj hh))

/-! ## Derived predicates about intake violations -/

/-- A critical-edge violation: block `b` has more than one predecessor
(counting the virtual entry predecessor) and predecessor `p` has more than
one successor. -/
def critViolPair (f : Func) (p b : Nat) : Prop :=
  b < f.blocks ∧ predCount f b > 1 ∧ p ∈ f.block_preds b ∧ (f.block_succs p).length > 1

instance (f : Func) (p b : Nat) : Decidable (critViolPair f p b) := by
  unfold critViolPair; infer_instance

/-- A branch-argument violation at block `b`: some successor has more than
one predecessor and the block's branch carries arguments. -/
def branchViol (f : Func) (b : Nat) : Prop :=
  b < f.blocks ∧ (∃ s ∈ f.block_succs b, predCount f s > 1) ∧
    f.branch_blockparam_arg_offset b (f.block_last b) > 0

instance (f : Func) (b : Nat) : Decidable (branchViol f b) := by
  unfold branchViol; infer_instance

/-- Block indices named by predecessor/successor lists are in range.
(`CFGInfo::new` indexes `pred_pos`/`backedge_in` by them, so the input
contract requires it.) -/
def FuncInRange (f : Func) : Prop :=
  ∀ b < f.blocks, (∀ p ∈ f.block_preds b, p < f.blocks) ∧
    (∀ s ∈ f.block_succs b, s < f.blocks)

instance (f : Func) : Decidable (FuncInRange f) := by
  unfold FuncInRange; infer_instance

/-- Predecessor and successor lists describe the same edge set. -/
def FuncCoherent (f : Func) : Prop :=
  ∀ b < f.blocks, ∀ s < f.blocks, (s ∈ f.block_succs b ↔ b ∈ f.block_preds s)

instance (f : Func) : Decidable (FuncCoherent f) := by
  unfold FuncCoherent; infer_instance

/-! ## The claim-side (spec-worded) loop-depth and transition algorithms -/

/-- Spec-worded backedge-in count for block `v`: the number of CFG edges
entering `v` whose successor index (`v`) is ≤ the source's index. -/
def specBackIn (f : Func) (v : Nat) : Nat :=
  ((List.range f.blocks).map
    (fun src => ((f.block_succs src).filter (fun s => s == v && s ≤ src)).length)).sum

/-- Spec-worded backedge-out count for block `b`: the number of successors
of `b` with index ≤ `b`. -/
def specBackOut (f : Func) (b : Nat) : Nat :=
  ((f.block_succs b).filter (fun s => s ≤ b)).length

/-- Spec-worded consumption of outgoing backedges: decrement the top
outstanding count once per outgoing backedge, popping counts that reach
zero. -/
def specConsume : Nat → List Nat → List Nat
  | 0, stack => stack
  | _ + 1, [] => []
  | n + 1, t :: rest =>
    if t - 1 = 0 then specConsume n rest
    else specConsume n ((t - 1) :: rest)

/-- Spec-worded loop-depth scan: on entering a back-edge target push its
incoming back-edge count; the block's loop depth is the current stack
depth; then consume the outgoing back-edges. -/
def specLoopDepthGo : List (Nat × Nat) → List Nat → List Nat
  | [], _ => []
  | (inb, outb) :: rest, stack =>
    let stack := if inb > 0 then inb :: stack else stack
    stack.length :: specLoopDepthGo rest (specConsume outb stack)

/-- Spec-worded approximate loop depth, per block: classify an edge as a
back-edge exactly when the successor's index is ≤ the source's index
(which is the position in RPO whenever the blocks are given in reverse
postorder), scan blocks in order with a stack of outstanding back-edge
counts, and take the stack depth as the depth. -/
def specLoopDepths (f : Func) : List Nat :=
  specLoopDepthGo ((List.range f.blocks).map (fun b => (specBackIn f b, specBackOut f b))) []

/-- Spec-worded loop-transition points: the block-entry points of exactly
those blocks whose depth strictly exceeds the depth of the immediately
preceding block, in block order. -/
def specTransitions (depths : List Nat) (entries : List ProgPoint) : List ProgPoint :=
  (((depths.zip depths.tail).zip entries.tail).filter
    (fun p => decide (p.1.1 < p.1.2))).map (fun p => p.2)

/-! ## Concrete functions used as counterexamples and witnesses -/

/-- Counterexample input for the critical-edge claim: edges `0→1`, `2→1`,
`2→2`, entry `0`, and block 0's branch carries a blockparam argument.
Block 1 has two predecessors and predecessor 2 has two successors (a
critical edge), but the scan hits the branch-argument violation of block 0
first. -/
def exC1 : Func where
  blocks := 3
  entry_block := 0
  block_preds := fun b => if b = 1 then [0, 2] else if b = 2 then [2] else []
  block_succs := fun b => if b = 0 then [1] else if b = 2 then [1, 2] else []
  block_first := fun b => b
  block_last := fun b => b
  branch_blockparam_arg_offset := fun b _ => if b = 0 then 1 else 0

/-- Counterexample input for the branch-argument claim: edges `0→1`,
`0→2`, `1→1`, entry `0`, and block 1's branch carries a blockparam
argument toward multi-pred successor 1; but block 1 also has the critical
edge `0→1` (predecessor 0 has two successors), and the scan reports
`CritEdge` first. -/
def exC5 : Func where
  blocks := 3
  entry_block := 0
  block_preds := fun b => if b = 1 then [0, 1] else if b = 2 then [0] else []
  block_succs := fun b => if b = 0 then [1, 2] else if b = 1 then [1] else []
  block_first := fun b => b
  block_last := fun b => b
  branch_blockparam_arg_offset := fun b _ => if b = 1 then 1 else 0

/-- A well-formed two-block loop (`0→1`, `1→1`, entry `0`) on which
`CFGInfo::new` succeeds; used as the witness input for the success-path
claims. -/
def exOk : Func where
  blocks := 2
  entry_block := 0
  block_preds := fun b => if b = 1 then [0, 1] else []
  block_succs := fun b => if b = 0 then [1] else if b = 1 then [1] else []
  block_first := fun b => b
  block_last := fun b => b
  branch_blockparam_arg_offset := fun _ _ => 0

/-- A function with no blocks (used for the out-of-bounds claim). -/
def exZero : Func where
  blocks := 0
  entry_block := 0
  block_preds := fun _ => []
  block_succs := fun _ => []
  block_first := fun _ => 0
  block_last := fun _ => 0
  branch_blockparam_arg_offset := fun _ _ => 0

/-! # Theorems -/

/-! ## List cell utilities -/

theorem nth_set_self {l : List Nat} {i : Nat} (h : i < l.length) (a : Nat) :
    nth (l.set i a) i = a := by
  unfold nth
  induction l generalizing i with
  | nil => simp at h
  | cons x xs ih =>
    cases i with
    | zero => simp [List.set, List.getD]
    | succ j => simpa [List.set, List.getD] using ih (by simpa using h)

theorem nth_set_ne {l : List Nat} {i j : Nat} (h : j ≠ i) (a : Nat) :
    nth (l.set i a) j = nth l j := by
  unfold nth
  induction l generalizing i j with
  | nil => simp [List.set]
  | cons x xs ih =>
    cases i with
    | zero =>
      cases j with
      | zero => exact absurd rfl h
      | succ k => simp [List.set, List.getD]
    | succ i' =>
      cases j with
      | zero => simp [List.set, List.getD]
      | succ k => simpa [List.set, List.getD] using ih (fun hk => h (by simp [hk]))

theorem nth_listIncr_self {l : List Nat} {i : Nat} (h : i < l.length) :
    nth (listIncr l i) i = nth l i + 1 :=
  nth_set_self h _

theorem nth_listIncr_ne {l : List Nat} {i j : Nat} (h : j ≠ i) :
    nth (listIncr l i) j = nth l j :=
  nth_set_ne h _

theorem length_listIncr (l : List Nat) (i : Nat) :
    (listIncr l i).length = l.length := by
  simp [listIncr]

/-! ## Bitvector lemmas -/

theorem bvGet_padTo (bv : List Bool) (n j : Nat) :
    bvGet (padTo bv n) j = bvGet bv j := by
  unfold bvGet padTo
  rcases lt_or_ge j bv.length with h | h
  · rw [List.getD_eq_getElem?_getD, List.getD_eq_getElem?_getD,
      List.getElem?_append_left h]
  · rw [List.getD_eq_getElem?_getD (bv ++ _), List.getElem?_append_right h]
    rcases lt_or_ge (j - bv.length) (n - bv.length) with h2 | h2
    · simp [List.getElem?_replicate, h2, List.getD_eq_getElem?_getD,
        List.getElem?_eq_none h]
    · simp [List.getElem?_replicate, Nat.not_lt.2 h2, List.getD_eq_getElem?_getD,
        List.getElem?_eq_none h]

theorem bvGet_set_self {bv : List Bool} {i : Nat} (h : i < bv.length) (b : Bool) :
    bvGet (bv.set i b) i = b := by
  unfold bvGet
  rw [List.getD_eq_getElem?_getD, List.getElem?_set_self (by simpa using h)]
  simp

theorem bvGet_set_ne {bv : List Bool} {i j : Nat} (h : j ≠ i) (b : Bool) :
    bvGet (bv.set i b) j = bvGet bv j := by
  unfold bvGet
  rw [List.getD_eq_getElem?_getD, List.getElem?_set_ne (fun hh => h hh.symm),
    List.getD_eq_getElem?_getD]

theorem bvGet_bvSet (bv : List Bool) (i : Nat) (b : Bool) (j : Nat) :
    bvGet (bvSet bv i b) j = if j = i then b else bvGet bv j := by
  unfold bvSet
  cases b with
  | true =>
    simp only [if_pos]
    by_cases hj : j = i
    · subst hj
      rw [if_pos rfl, bvGet_set_self]
      simp [padTo]
      omega
    · rw [if_neg hj, bvGet_set_ne hj, bvGet_padTo]
  | false =>
    simp only [Bool.false_eq_true, if_neg, ite_false]
    by_cases hj : j = i
    · subst hj
      rw [if_pos rfl]
      rcases lt_or_ge j bv.length with h | h
      · exact bvGet_set_self h _
      · rw [List.set_eq_of_length_le (by simpa using h)]
        unfold bvGet
        rw [List.getD_eq_getElem?_getD, List.getElem?_eq_none (by simpa using h)]
        rfl
    · rw [if_neg hj, bvGet_set_ne hj]

theorem bvGet_true_lt {bv : List Bool} {v : Nat} (h : bvGet bv v = true) :
    v < bv.length := by
  by_contra hge
  unfold bvGet at h
  rw [List.getD_eq_getElem?_getD, List.getElem?_eq_none (by omega)] at h
  simp at h

theorem mem_bvIter {bv : List Bool} {v : Nat} :
    v ∈ bvIter bv ↔ bvGet bv v = true := by
  unfold bvIter
  constructor
  · intro h
    exact (List.mem_filter.1 h).2
  · intro h
    exact List.mem_filter.2 ⟨List.mem_range.2 (bvGet_true_lt h), h⟩

theorem pairwise_bvIter (bv : List Bool) : (bvIter bv).Pairwise (· < ·) :=
  List.Pairwise.filter _ (List.pairwise_lt_range _)

theorem nodup_bvIter (bv : List Bool) : (bvIter bv).Nodup :=
  (pairwise_bvIter bv).imp Nat.ne_of_lt

theorem bvGet_bvOrBits (a b : List Bool) (j : Nat) :
    bvGet (bvOrBits a b) j = (bvGet a j || bvGet b j) := by
  induction a generalizing b j with
  | nil =>
    unfold bvOrBits
    simp [bvGet, List.getD]
  | cons x xs ih =>
    cases b with
    | nil => simp [bvOrBits, bvGet, List.getD]
    | cons y ys =>
      cases j with
      | zero => simp [bvOrBits, bvGet, List.getD]
      | succ k => simpa [bvOrBits, bvGet, List.getD] using ih ys k

theorem bvOrChanged_iff {a b : List Bool} :
    bvOrChanged a b = true ↔ ∃ v, bvGet b v = true ∧ bvGet a v = false := by
  unfold bvOrChanged
  rw [List.any_eq_true]
  constructor
  · rintro ⟨i, _, h⟩
    rw [Bool.and_eq_true, Bool.not_eq_true'] at h
    exact ⟨i, h.1, h.2⟩
  · rintro ⟨v, h1, h2⟩
    exact ⟨v, List.mem_range.2 (bvGet_true_lt h1), by simp [h1, h2]⟩

theorem bvIter_empty_iff {bv : List Bool} :
    (bvIter bv).isEmpty = true ↔ ∀ v, bvGet bv v = false := by
  rw [List.isEmpty_iff, List.eq_nil_iff_forall_not_mem]
  constructor
  · intro h v
    by_contra hb
    exact h v (mem_bvIter.2 (by simpa using hb))
  · intro h v hv
    have hb := mem_bvIter.1 hv
    rw [h v] at hb
    exact Bool.noConfusion hb

/-! ## `remove_dups` and `strictSorted` lemmas -/

theorem strictSorted_iff {l : List Nat} :
    strictSorted l = true ↔ l.Pairwise (· < ·) := by
  rw [← List.chain'_iff_pairwise]
  induction l with
  | nil => simp [strictSorted]
  | cons x xs ih =>
    cases xs with
    | nil => simp [strictSorted]
    | cons y ys =>
      rw [List.chain'_cons, ← ih]
      simp [strictSorted]

theorem mem_remove_dups_go {l : List Nat} {last : Option Nat}
    (hs : l.Pairwise (· ≤ ·)) (hl : ∀ a, last = some a → ∀ x ∈ l, a ≤ x) (v : Nat) :
    v ∈ remove_dups_go last l ↔ v ∈ l ∧ some v ≠ last := by
  induction l generalizing last with
  | nil => simp [remove_dups_go]
  | cons x xs ih =>
    rw [List.pairwise_cons] at hs
    have hrec : ∀ a : Nat, some x = some a → ∀ y ∈ xs, a ≤ y := by
      intro a ha y hy
      obtain rfl := Option.some_inj.1 ha
      exact hs.1 y hy
    by_cases hx : some x = last
    · rw [remove_dups_go, if_pos hx, ih hs.2 hrec]
      subst hx
      constructor
      · rintro ⟨h1, h2⟩
        exact ⟨List.mem_cons_of_mem _ h1, h2⟩
      · rintro ⟨h1, h2⟩
        rcases List.mem_cons.1 h1 with rfl | h1
        · exact (h2 rfl).elim
        · exact ⟨h1, h2⟩
    · rw [remove_dups_go, if_neg hx]
      rw [List.mem_cons, ih hs.2 hrec]
      constructor
      · rintro (rfl | ⟨h1, _⟩)
        · exact ⟨List.mem_cons_self _ _, fun hh => hx hh⟩
        · refine ⟨List.mem_cons_of_mem _ h1, ?_⟩
          rintro rfl
          rcases hl v rfl x (List.mem_cons_self _ _) with hle
          rcases hs.1 v h1 with hle2
          exact hx (by rw [le_antisymm hle2 hle])
      · rintro ⟨h1, h2⟩
        rcases List.mem_cons.1 h1 with rfl | h1
        · exact Or.inl rfl
        · by_cases hvx : v = x
          · exact Or.inl hvx
          · refine Or.inr ⟨h1, ?_⟩
            intro hh
            exact hvx (Option.some_inj.1 hh)

theorem pairwise_remove_dups_go {l : List Nat} {last : Option Nat}
    (hs : l.Pairwise (· ≤ ·)) (hl : ∀ a, last = some a → ∀ x ∈ l, a ≤ x) :
    (remove_dups_go last l).Pairwise (· < ·) ∧
      ∀ v ∈ remove_dups_go last l, ∀ a, last = some a → a < v := by
  induction l generalizing last with
  | nil => simp [remove_dups_go]
  | cons x xs ih =>
    rw [List.pairwise_cons] at hs
    have hrec : ∀ a : Nat, some x = some a → ∀ y ∈ xs, a ≤ y := by
      intro a ha y hy
      obtain rfl := Option.some_inj.1 ha
      exact hs.1 y hy
    by_cases hx : some x = last
    · rw [remove_dups_go, if_pos hx]
      rcases ih hs.2 hrec with ⟨h1, h2⟩
      subst hx
      refine ⟨h1, ?_⟩
      intro v hv a ha
      obtain rfl := Option.some_inj.1 ha
      exact h2 v hv _ rfl
    · rw [remove_dups_go, if_neg hx]
      rcases ih hs.2 hrec with ⟨h1, h2⟩
      constructor
      · rw [List.pairwise_cons]
        exact ⟨fun v hv => h2 v hv x rfl, h1⟩
      · intro v hv a ha
        subst ha
        rcases hl a rfl x (List.mem_cons_self _ _) with hax
        have hax' : a ≠ x := fun hh => hx (by rw [hh])
        rcases List.mem_cons.1 hv with rfl | hv
        · omega
        · have := h2 v hv x rfl
          omega

theorem mem_remove_dups {l : List Nat} (hs : l.Pairwise (· ≤ ·)) (v : Nat) :
    v ∈ remove_dups l ↔ v ∈ l := by
  unfold remove_dups
  rw [mem_remove_dups_go hs (by rintro a ⟨⟩)]
  simp

theorem pairwise_remove_dups {l : List Nat} (hs : l.Pairwise (· ≤ ·)) :
    (remove_dups l).Pairwise (· < ·) :=
  (pairwise_remove_dups_go hs (by rintro a ⟨⟩)).1

theorem mem_sortedList {l : List Nat} (v : Nat) :
    v ∈ remove_dups (List.insertionSort (· ≤ ·) l) ↔ v ∈ l := by
  rw [mem_remove_dups (List.sorted_insertionSort _ l),
    (List.perm_insertionSort (· ≤ ·) l).mem_iff]

theorem pairwise_sortedList (l : List Nat) :
    (remove_dups (List.insertionSort (· ≤ ·) l)).Pairwise (· < ·) :=
  pairwise_remove_dups (List.sorted_insertionSort _ l)

/-! ## `IntSet` semantics -/

theorem beq_of_iff {a b : Bool} (h : a = true ↔ b = true) : a = b := by
  cases a <;> cases b <;> simp_all

theorem is_empty_eq_iter (s : IntSet) : s.is_empty = s.iter.isEmpty := by
  cases s <;> rfl

theorem mem_iter_sort (s : IntSet) (v : Nat) :
    v ∈ s.sort.iter ↔ v ∈ s.iter := by
  cases s with
  | Unsorted l => exact mem_sortedList v
  | _ => exact Iff.rfl

theorem wf_sort {s : IntSet} (h : s.wf = true) : s.sort.wf = true := by
  cases s with
  | Unsorted l =>
    simpa [IntSet.sort, IntSet.wf, strictSorted_iff] using pairwise_sortedList l
  | _ => exact h

theorem sort_not_unsorted (s : IntSet) : s.sort.isUnsortedMode = false := by
  cases s <;> rfl

theorem mem_iter_add (s : IntSet) (v w : Nat) :
    w ∈ (s.add v).iter ↔ w ∈ s.iter ∨ w = v := by
  cases s with
  | Empty =>
    by_cases h : v ≥ SPARSE_THRESHOLD
    · simp [IntSet.add, h, IntSet.iter]
    · simp only [IntSet.add, if_neg h, IntSet.iter, mem_bvIter, bvGet_bvSet]
      by_cases hw : w = v <;> simp [hw, bvGet, List.getD]
  | Small bv =>
    by_cases h : v ≥ SPARSE_THRESHOLD
    · simp [IntSet.add, h, IntSet.iter]
    · simp only [IntSet.add, if_neg h, IntSet.iter, mem_bvIter, bvGet_bvSet]
      by_cases hw : w = v <;> simp [hw, mem_bvIter]
  | Unsorted l => simp [IntSet.add, IntSet.iter]
  | Sorted l => simp [IntSet.add, IntSet.iter]

theorem wf_add (s : IntSet) (v : Nat) : (s.add v).wf = true := by
  cases s with
  | Empty =>
    by_cases h : v ≥ SPARSE_THRESHOLD <;>
      simp [IntSet.add, h, IntSet.wf, strictSorted]
  | Small bv =>
    by_cases h : v ≥ SPARSE_THRESHOLD <;>
      simp [IntSet.add, h, IntSet.wf]
  | Unsorted l => simp [IntSet.add, IntSet.wf]
  | Sorted l => simp [IntSet.add, IntSet.wf]

theorem nodup_of_wf_sorted {l : List Nat} (h : IntSet.wf (.Sorted l) = true) :
    l.Nodup := by
  rw [IntSet.wf, strictSorted_iff] at h
  exact h.imp Nat.ne_of_lt

theorem mem_iter_remove {s : IntSet} (h : s.wf = true) (v w : Nat) :
    w ∈ (s.remove v).iter ↔ w ∈ s.iter ∧ w ≠ v := by
  cases s with
  | Empty => simp [IntSet.remove, IntSet.iter]
  | Small bv =>
    simp only [IntSet.remove, IntSet.iter, mem_bvIter, bvGet_bvSet]
    by_cases hw : w = v <;> simp [hw]
  | Unsorted l => simp [IntSet.remove, IntSet.iter]
  | Sorted l =>
    simp only [IntSet.remove, IntSet.iter]
    rw [List.Nodup.mem_erase_iff (nodup_of_wf_sorted h)]
    exact and_comm

theorem wf_remove {s : IntSet} (h : s.wf = true) (v : Nat) :
    (s.remove v).wf = true := by
  cases s with
  | Sorted l =>
    rw [IntSet.remove, IntSet.wf, strictSorted_iff]
    rw [IntSet.wf, strictSorted_iff] at h
    exact h.sublist (List.erase_sublist _ _)
  | _ => rfl

theorem contains_fst_mem (s : IntSet) (v w : Nat) :
    w ∈ (s.contains v).1.iter ↔ w ∈ s.iter := by
  cases s with
  | Unsorted l =>
    by_cases h : l.length ≥ SORT_THRESHOLD
    · simpa [IntSet.contains, h] using mem_iter_sort (.Unsorted l) w
    · simp [IntSet.contains, h]
  | _ => exact Iff.rfl

theorem contains_fst_wf {s : IntSet} (h : s.wf = true) (v : Nat) :
    (s.contains v).1.wf = true := by
  cases s with
  | Unsorted l =>
    by_cases hl : l.length ≥ SORT_THRESHOLD
    · simpa [IntSet.contains, hl] using wf_sort (s := .Unsorted l) rfl
    · simp [IntSet.contains, hl, IntSet.wf]
  | _ => exact h

theorem contains_snd (s : IntSet) (v : Nat) :
    (s.contains v).2 = true ↔ v ∈ s.iter := by
  cases s with
  | Empty => simp [IntSet.contains, IntSet.iter]
  | Small bv => simp [IntSet.contains, IntSet.iter, mem_bvIter]
  | Unsorted l =>
    by_cases h : l.length ≥ SORT_THRESHOLD
    · simp only [IntSet.contains, h, if_pos, IntSet.sort, IntSet.iter]
      rw [List.elem_iff, mem_sortedList]
    · simp [IntSet.contains, h, IntSet.iter]
  | Sorted l =>
    simp only [IntSet.contains, IntSet.iter]
    exact List.elem_iff


theorem msGo_nil_right (n : Nat) (l1 : List Nat) : msGo n l1 [] = (l1, false) := by
  cases n <;> cases l1 <;> rfl

theorem msGo_nil_left (n : Nat) (y : Nat) (ys : List Nat) :
    msGo n [] (y :: ys) = (y :: ys, true) := by
  cases n <;> rfl

theorem msGo_succ (n x y : Nat) (xs ys : List Nat) :
    msGo (n + 1) (x :: xs) (y :: ys) =
      if x = y then (x :: (msGo n xs ys).1, (msGo n xs ys).2)
      else if x < y then (x :: (msGo n xs (y :: ys)).1, (msGo n xs (y :: ys)).2)
      else (y :: (msGo n (x :: xs) ys).1, true) := rfl

theorem msGo_mem : ∀ (n : Nat) (l1 l2 : List Nat), l1.length + l2.length ≤ n →
    ∀ v, (v ∈ (msGo n l1 l2).1 ↔ v ∈ l1 ∨ v ∈ l2) := by
  intro n
  induction n with
  | zero =>
    intro l1 l2 h v
    have h1 : l1 = [] := List.eq_nil_of_length_eq_zero (by omega)
    have h2 : l2 = [] := List.eq_nil_of_length_eq_zero (by omega)
    subst h1; subst h2
    simp [msGo_nil_right]
  | succ n ih =>
    intro l1 l2 h v
    cases l2 with
    | nil => simp [msGo_nil_right]
    | cons y ys =>
      cases l1 with
      | nil => simp [msGo_nil_left]
      | cons x xs =>
        simp only [List.length_cons] at h
        rw [msGo_succ]
        by_cases hxy : x = y
        · subst hxy
          rw [if_pos rfl]
          have hih := ih xs ys (by omega) v
          simp only [List.mem_cons, hih]
          tauto
        · by_cases hlt : x < y
          · rw [if_neg hxy, if_pos hlt]
            have hih := ih xs (y :: ys) (by simp; omega) v
            simp only [List.mem_cons, hih]
            tauto
          · rw [if_neg hxy, if_neg hlt]
            have hih := ih (x :: xs) ys (by simp; omega) v
            simp only [List.mem_cons, hih]
            tauto

theorem msGo_pairwise : ∀ (n : Nat) (l1 l2 : List Nat), l1.length + l2.length ≤ n →
    l1.Pairwise (· < ·) → l2.Pairwise (· < ·) → (msGo n l1 l2).1.Pairwise (· < ·) := by
  intro n
  induction n with
  | zero =>
    intro l1 l2 h h1 h2
    have e1 : l1 = [] := List.eq_nil_of_length_eq_zero (by omega)
    have e2 : l2 = [] := List.eq_nil_of_length_eq_zero (by omega)
    subst e1; subst e2
    rw [msGo_nil_right]
    exact List.Pairwise.nil
  | succ n ih =>
    intro l1 l2 h h1 h2
    cases l2 with
    | nil => rw [msGo_nil_right]; exact h1
    | cons y ys =>
      cases l1 with
      | nil => rw [msGo_nil_left]; exact h2
      | cons x xs =>
        simp only [List.length_cons] at h
        rw [List.pairwise_cons] at h1 h2
        rw [msGo_succ]
        by_cases hxy : x = y
        · subst hxy
          rw [if_pos rfl]
          rw [List.pairwise_cons]
          refine ⟨?_, ih xs ys (by omega) h1.2 h2.2⟩
          intro w hw
          rcases (msGo_mem n xs ys (by omega) w).1 hw with hw' | hw'
          · exact h1.1 w hw'
          · exact h2.1 w hw'
        · by_cases hlt : x < y
          · rw [if_neg hxy, if_pos hlt]
            rw [List.pairwise_cons]
            refine ⟨?_, ih xs (y :: ys) (by simp; omega) h1.2 (List.pairwise_cons.2 h2)⟩
            intro w hw
            rcases (msGo_mem n xs (y :: ys) (by simp; omega) w).1 hw with hw' | hw'
            · exact h1.1 w hw'
            · rcases List.mem_cons.1 hw' with rfl | hw''
              · exact hlt
              · exact lt_trans hlt (h2.1 w hw'')
          · have hyx : y < x := by omega
            rw [if_neg hxy, if_neg hlt]
            rw [List.pairwise_cons]
            refine ⟨?_, ih (x :: xs) ys (by simp; omega) (List.pairwise_cons.2 h1) h2.2⟩
            intro w hw
            rcases (msGo_mem n (x :: xs) ys (by simp; omega) w).1 hw with hw' | hw'
            · rcases List.mem_cons.1 hw' with rfl | hw''
              · exact hyx
              · exact lt_trans hyx (h1.1 w hw'')
            · exact h2.1 w hw'

theorem msGo_changed : ∀ (n : Nat) (l1 l2 : List Nat), l1.length + l2.length ≤ n →
    l1.Pairwise (· < ·) → l2.Pairwise (· < ·) →
    ((msGo n l1 l2).2 = true ↔ ∃ v, v ∈ l2 ∧ v ∉ l1) := by
  intro n
  induction n with
  | zero =>
    intro l1 l2 h h1 h2
    have e1 : l1 = [] := List.eq_nil_of_length_eq_zero (by omega)
    have e2 : l2 = [] := List.eq_nil_of_length_eq_zero (by omega)
    subst e1; subst e2
    rw [msGo_nil_right]
    simp
  | succ n ih =>
    intro l1 l2 h h1 h2
    cases l2 with
    | nil => rw [msGo_nil_right]; simp
    | cons y ys =>
      cases l1 with
      | nil =>
        rw [msGo_nil_left]
        simp only [true_iff]
        exact ⟨y, List.mem_cons_self _ _, List.not_mem_nil _⟩
      | cons x xs =>
        simp only [List.length_cons] at h
        rw [List.pairwise_cons] at h1 h2
        rw [msGo_succ]
        by_cases hxy : x = y
        · subst hxy
          rw [if_pos rfl]
          rw [ih xs ys (by omega) h1.2 h2.2]
          constructor
          · rintro ⟨v, hv, hnv⟩
            refine ⟨v, List.mem_cons_of_mem _ hv, ?_⟩
            intro hvx
            rcases List.mem_cons.1 hvx with rfl | hvx'
            · exact absurd (h2.1 v hv) (lt_irrefl v)
            · exact hnv hvx'
          · rintro ⟨v, hv, hnv⟩
            rcases List.mem_cons.1 hv with rfl | hv'
            · exact absurd (List.mem_cons_self _ _) hnv
            · exact ⟨v, hv', fun hvx => hnv (List.mem_cons_of_mem _ hvx)⟩
        · by_cases hlt : x < y
          · rw [if_neg hxy, if_pos hlt]
            rw [ih xs (y :: ys) (by simp; omega) h1.2 (List.pairwise_cons.2 h2)]
            constructor
            · rintro ⟨v, hv, hnv⟩
              refine ⟨v, hv, ?_⟩
              intro hvx
              rcases List.mem_cons.1 hvx with rfl | hvx'
              · rcases List.mem_cons.1 hv with rfl | hv'
                · exact hxy rfl
                · exact absurd (h2.1 v hv') (by omega)
              · exact hnv hvx'
            · rintro ⟨v, hv, hnv⟩
              exact ⟨v, hv, fun hvx => hnv (List.mem_cons_of_mem _ hvx)⟩
          · have hyx : y < x := by omega
            rw [if_neg hxy, if_neg hlt]
            simp only [true_iff]
            refine ⟨y, List.mem_cons_self _ _, ?_⟩
            intro hy
            rcases List.mem_cons.1 hy with rfl | hy'
            · exact lt_irrefl y hyx
            · exact absurd (h1.1 y hy') (by omega)

theorem mergeSortedLists_mem (l1 l2 : List Nat) (v : Nat) :
    v ∈ (mergeSortedLists l1 l2).1 ↔ v ∈ l1 ∨ v ∈ l2 :=
  msGo_mem _ l1 l2 le_rfl v

theorem mergeSortedLists_pairwise {l1 l2 : List Nat}
    (h1 : l1.Pairwise (· < ·)) (h2 : l2.Pairwise (· < ·)) :
    (mergeSortedLists l1 l2).1.Pairwise (· < ·) :=
  msGo_pairwise _ l1 l2 le_rfl h1 h2

theorem mergeSortedLists_changed {l1 l2 : List Nat}
    (h1 : l1.Pairwise (· < ·)) (h2 : l2.Pairwise (· < ·)) :
    ((mergeSortedLists l1 l2).2 = true ↔ ∃ v, v ∈ l2 ∧ v ∉ l1) :=
  msGo_changed _ l1 l2 le_rfl h1 h2

theorem not_isEmpty_iff_exists {l : List Nat} : (!l.isEmpty) = true ↔ ∃ v, v ∈ l := by
  cases l <;> simp

theorem ne_nil_iff_exists_mem {l : List Nat} : ¬ l = [] ↔ ∃ v, v ∈ l := by
  cases l <;> simp

theorem merge_snd (s o : IntSet) : (s.merge o).2.1 = o.sort := by
  rcases hs' : s.sort with _ | bv | l | l <;> rcases ho' : o.sort with _ | bv2 | l2 | l2 <;>
    simp [IntSet.merge, hs', ho', mergeSortedLists]

theorem merge_spec {s o : IntSet} (hs : s.wf = true) (ho : o.wf = true) :
    (∀ v, v ∈ (s.merge o).1.iter ↔ v ∈ s.iter ∨ v ∈ o.iter) ∧
    ((s.merge o).2.2 = true ↔ ∃ v, v ∈ o.iter ∧ v ∉ s.iter) ∧
    (s.merge o).1.wf = true := by
  suffices H : (∀ v, v ∈ (s.merge o).1.iter ↔ v ∈ s.sort.iter ∨ v ∈ o.sort.iter) ∧
      ((s.merge o).2.2 = true ↔ ∃ v, v ∈ o.sort.iter ∧ v ∉ s.sort.iter) ∧
      (s.merge o).1.wf = true by
    refine ⟨fun v => (H.1 v).trans ?_, ?_, H.2.2⟩
    · rw [mem_iter_sort, mem_iter_sort]
    · rw [H.2.1]
      constructor
      · rintro ⟨v, h1, h2⟩
        exact ⟨v, (mem_iter_sort o v).1 h1, fun hc => h2 ((mem_iter_sort s v).2 hc)⟩
      · rintro ⟨v, h1, h2⟩
        exact ⟨v, (mem_iter_sort o v).2 h1, fun hc => h2 ((mem_iter_sort s v).1 hc)⟩
  have hws := wf_sort hs
  have hwo := wf_sort ho
  have hsu := sort_not_unsorted s
  have hou := sort_not_unsorted o
  rcases hs' : s.sort with _ | bv | l1 | l1
  · -- s.sort = Empty
    rcases ho' : o.sort with _ | bv2 | l2 | l2
    · refine ⟨fun v => ?_, ?_, ?_⟩ <;> simp [IntSet.merge, hs', ho', IntSet.iter, IntSet.wf]
    · rw [ho'] at hwo
      refine ⟨fun v => ?_, ?_, ?_⟩ <;>
        simp [IntSet.merge, hs', ho', IntSet.iter, IntSet.is_empty, IntSet.wf,
          ne_nil_iff_exists_mem, hwo]
    · rw [ho'] at hou; simp [IntSet.isUnsortedMode] at hou
    · rw [ho'] at hwo
      rw [IntSet.wf] at hwo
      refine ⟨fun v => ?_, ?_, ?_⟩ <;>
        simp [IntSet.merge, hs', ho', IntSet.iter, IntSet.is_empty, IntSet.wf,
          ne_nil_iff_exists_mem, hwo]
  · -- s.sort = Small bv
    rcases ho' : o.sort with _ | bv2 | l2 | l2
    · refine ⟨fun v => ?_, ?_, ?_⟩ <;>
        simp [IntSet.merge, hs', ho', IntSet.iter, IntSet.wf]
    · rw [hs'] at hws
      refine ⟨fun v => ?_, ?_, ?_⟩
      · simp [IntSet.merge, hs', ho', IntSet.iter, bvOr, mem_bvIter, bvGet_bvOrBits]
      · simp only [IntSet.merge, hs', ho', bvOr, IntSet.iter]
        rw [bvOrChanged_iff]
        constructor
        · rintro ⟨v, h1, h2⟩
          exact ⟨v, mem_bvIter.2 h1, fun hc => by rw [mem_bvIter.1 hc] at h2; cases h2⟩
        · rintro ⟨v, h1, h2⟩
          refine ⟨v, mem_bvIter.1 h1, ?_⟩
          rcases hb : bvGet bv v with _ | _
          · rfl
          · exact absurd (mem_bvIter.2 hb) h2
      · simp [IntSet.merge, hs', ho', IntSet.wf]
    · rw [ho'] at hou; simp [IntSet.isUnsortedMode] at hou
    · -- Small, Sorted
      refine ⟨fun v => ?_, ?_, ?_⟩
      · simp only [IntSet.merge, hs', ho', IntSet.iter, List.mem_append]
        tauto
      · simp only [IntSet.merge, hs', ho', IntSet.iter]
        rw [List.any_eq_true]
        constructor
        · rintro ⟨v, h1, h2⟩
          rw [Bool.not_eq_true'] at h2
          exact ⟨v, h1, fun hc => by rw [mem_bvIter.1 hc] at h2; cases h2⟩
        · rintro ⟨v, h1, h2⟩
          refine ⟨v, h1, ?_⟩
          rw [Bool.not_eq_true']
          rcases hb : bvGet bv v with _ | _
          · rfl
          · exact absurd (mem_bvIter.2 hb) h2
      · simp [IntSet.merge, hs', ho', IntSet.wf]
  · rw [hs'] at hsu; simp [IntSet.isUnsortedMode] at hsu
  · -- s.sort = Sorted l1
    rw [hs'] at hws
    have hp1 : l1.Pairwise (· < ·) := by
      rw [IntSet.wf, strictSorted_iff] at hws; exact hws
    rcases ho' : o.sort with _ | bv2 | l2 | l2
    · refine ⟨fun v => ?_, ?_, ?_⟩ <;>
        simp [IntSet.merge, hs', ho', IntSet.iter, IntSet.wf, strictSorted_iff, hp1]
    · -- Sorted, Small
      refine ⟨fun v => ?_, ?_, ?_⟩
      · simp only [IntSet.merge, hs', ho', IntSet.iter, List.mem_append, List.mem_filter]
        constructor
        · rintro (h | h)
          · exact Or.inl h
          · exact Or.inr (h.1)
        · rintro (h | h)
          · exact Or.inl h
          · by_cases hc : v ∈ l1
            · exact Or.inl hc
            · refine Or.inr ⟨h, ?_⟩
              simp only [Bool.not_eq_true', ← Bool.not_eq_true, List.elem_iff]
              simpa using hc
      · simp only [IntSet.merge, hs', ho', IntSet.iter]
        rw [not_isEmpty_iff_exists]
        constructor
        · rintro ⟨v, hv⟩
          rcases List.mem_filter.1 hv with ⟨h1, h2⟩
          rw [Bool.not_eq_true', ← Bool.not_eq_true] at h2
          refine ⟨v, h1, ?_⟩
          intro hc
          exact absurd (List.elem_iff.2 hc) (by simpa using h2)
        · rintro ⟨v, h1, h2⟩
          refine ⟨v, List.mem_filter.2 ⟨h1, ?_⟩⟩
          simp only [Bool.not_eq_true', ← Bool.not_eq_true, List.elem_iff]
          simpa using h2
      · simp [IntSet.merge, hs', ho', IntSet.wf]
    · rw [ho'] at hou; simp [IntSet.isUnsortedMode] at hou
    · -- Sorted, Sorted
      rw [ho'] at hwo
      have hp2 : l2.Pairwise (· < ·) := by
        rw [IntSet.wf, strictSorted_iff] at hwo; exact hwo
      rcases hm : mergeSortedLists l1 l2 with ⟨m, ch⟩
      have hmem := mergeSortedLists_mem l1 l2
      have hchg := mergeSortedLists_changed hp1 hp2
      have hpm := mergeSortedLists_pairwise hp1 hp2
      rw [hm] at hmem hchg hpm
      refine ⟨fun v => ?_, ?_, ?_⟩
      · simpa [IntSet.merge, hs', ho', hm, IntSet.iter] using hmem v
      · simpa [IntSet.merge, hs', ho', hm, IntSet.iter] using hchg
      · simpa [IntSet.merge, hs', ho', hm, IntSet.wf, strictSorted_iff] using hpm

/-! ## Lockstep simulation of the fuzz harness -/

theorem mem_canon (l : List Nat) (v : Nat) : v ∈ canon l ↔ v ∈ l := by
  unfold canon
  rw [List.mem_dedup, (List.perm_insertionSort (· ≤ ·) l).mem_iff]

theorem stepSim (a : SetAction) (m : Finset Nat × Finset Nat) (i : IntSet × IntSet)
    (hw1 : i.1.wf = true) (hw2 : i.2.wf = true)
    (hm1 : ∀ v, v ∈ i.1.iter ↔ v ∈ m.1) (hm2 : ∀ v, v ∈ i.2.iter ↔ v ∈ m.2) :
    (implStep i a).2 = (modelStep m a).2 ∧
    (implStep i a).1.1.wf = true ∧ (implStep i a).1.2.wf = true ∧
    (∀ v, v ∈ (implStep i a).1.1.iter ↔ v ∈ (modelStep m a).1.1) ∧
    (∀ v, v ∈ (implStep i a).1.2.iter ↔ v ∈ (modelStep m a).1.2) := by
  rcases i with ⟨l, r⟩
  rcases m with ⟨ml, mr⟩
  simp only at hw1 hw2 hm1 hm2
  cases a with
  | AddLeft v =>
    refine ⟨rfl, wf_add _ _, hw2, fun w => ?_, hm2⟩
    rw [implStep, modelStep]
    simp only [mem_iter_add, Finset.mem_insert, hm1 w]
    tauto
  | AddRight v =>
    refine ⟨rfl, hw1, wf_add _ _, hm1, fun w => ?_⟩
    rw [implStep, modelStep]
    simp only [mem_iter_add, Finset.mem_insert, hm2 w]
    tauto
  | RemoveLeft v =>
    rcases hc : l.contains v with ⟨l1, y⟩
    have hfw : l1.wf = true := by
      have := contains_fst_wf hw1 v
      rw [hc] at this
      exact this
    have hfm : ∀ w, w ∈ l1.iter ↔ w ∈ l.iter := by
      intro w
      have := contains_fst_mem l v w
      rw [hc] at this
      exact this
    have hsnd : y = decide (v ∈ ml) := by
      apply beq_of_iff
      have := contains_snd l v
      rw [hc] at this
      simp only [this, hm1 v, decide_eq_true_iff]
    constructor
    · simp [implStep, modelStep, hc, hsnd]
    · simp only [implStep, hc, modelStep]
      refine ⟨wf_remove hfw v, hw2, fun w => ?_, hm2⟩
      rw [mem_iter_remove hfw, Finset.mem_erase, hfm w, hm1 w]
      tauto
  | RemoveRight v =>
    rcases hc : r.contains v with ⟨r1, y⟩
    have hfw : r1.wf = true := by
      have := contains_fst_wf hw2 v
      rw [hc] at this
      exact this
    have hfm : ∀ w, w ∈ r1.iter ↔ w ∈ r.iter := by
      intro w
      have := contains_fst_mem r v w
      rw [hc] at this
      exact this
    have hsnd : y = decide (v ∈ mr) := by
      apply beq_of_iff
      have := contains_snd r v
      rw [hc] at this
      simp only [this, hm2 v, decide_eq_true_iff]
    constructor
    · simp [implStep, modelStep, hc, hsnd]
    · simp only [implStep, hc, modelStep]
      refine ⟨hw1, wf_remove hfw v, hm1, fun w => ?_⟩
      rw [mem_iter_remove hfw, Finset.mem_erase, hfm w, hm2 w]
      tauto
  | LeftContains v =>
    rcases hc : l.contains v with ⟨l1, y⟩
    have hfw : l1.wf = true := by
      have := contains_fst_wf hw1 v
      rw [hc] at this
      exact this
    have hfm : ∀ w, w ∈ l1.iter ↔ w ∈ l.iter := by
      intro w
      have := contains_fst_mem l v w
      rw [hc] at this
      exact this
    have hsnd : y = decide (v ∈ ml) := by
      apply beq_of_iff
      have := contains_snd l v
      rw [hc] at this
      simp only [this, hm1 v, decide_eq_true_iff]
    constructor
    · simp [implStep, modelStep, hc, hsnd]
    · simp only [implStep, hc, modelStep]
      refine ⟨hfw, hw2, fun w => ?_, hm2⟩
      rw [hfm w, hm1 w]
  | RightContains v =>
    rcases hc : r.contains v with ⟨r1, y⟩
    have hfw : r1.wf = true := by
      have := contains_fst_wf hw2 v
      rw [hc] at this
      exact this
    have hfm : ∀ w, w ∈ r1.iter ↔ w ∈ r.iter := by
      intro w
      have := contains_fst_mem r v w
      rw [hc] at this
      exact this
    have hsnd : y = decide (v ∈ mr) := by
      apply beq_of_iff
      have := contains_snd r v
      rw [hc] at this
      simp only [this, hm2 v, decide_eq_true_iff]
    constructor
    · simp [implStep, modelStep, hc, hsnd]
    · simp only [implStep, hc, modelStep]
      refine ⟨hw1, hfw, hm1, fun w => ?_⟩
      rw [hfm w, hm2 w]
  | ClearLeft =>
    refine ⟨rfl, rfl, hw2, fun w => ?_, hm2⟩
    simp [implStep, modelStep, IntSet.iter]
  | ClearRight =>
    refine ⟨rfl, hw1, rfl, hm1, fun w => ?_⟩
    simp [implStep, modelStep, IntSet.iter]
  | MergeLeftToRight =>
    rcases hmg : r.merge l with ⟨r1, l1, ch⟩
    have hspec := merge_spec hw2 hw1
    have hsnd := merge_snd r l
    rw [hmg] at hspec hsnd
    simp only at hspec hsnd
    have hl1 : l1 = l.sort := hsnd
    subst hl1
    constructor
    · simp only [implStep, hmg, modelStep]
      congr 1
      apply beq_of_iff
      rw [hspec.2.1, decide_eq_true_iff, Finset.not_subset]
      constructor
      · rintro ⟨v, h1, h2⟩
        exact ⟨v, (hm1 v).1 h1, fun hc => h2 ((hm2 v).2 hc)⟩
      · rintro ⟨v, h1, h2⟩
        exact ⟨v, (hm1 v).2 h1, fun hc => h2 ((hm2 v).1 hc)⟩
    · simp only [implStep, hmg, modelStep]
      refine ⟨wf_sort hw1, hspec.2.2, fun w => ?_, fun w => ?_⟩
      · rw [mem_iter_sort, hm1 w]
      · rw [hspec.1 w, Finset.mem_union, hm1 w, hm2 w]
  | MergeRightToLeft =>
    rcases hmg : l.merge r with ⟨l1, r1, ch⟩
    have hspec := merge_spec hw1 hw2
    have hsnd := merge_snd l r
    rw [hmg] at hspec hsnd
    simp only at hspec hsnd
    have hr1 : r1 = r.sort := hsnd
    subst hr1
    constructor
    · simp only [implStep, hmg, modelStep]
      congr 1
      apply beq_of_iff
      rw [hspec.2.1, decide_eq_true_iff, Finset.not_subset]
      constructor
      · rintro ⟨v, h1, h2⟩
        exact ⟨v, (hm2 v).1 h1, fun hc => h2 ((hm1 v).2 hc)⟩
      · rintro ⟨v, h1, h2⟩
        exact ⟨v, (hm2 v).2 h1, fun hc => h2 ((hm1 v).1 hc)⟩
    · simp only [implStep, hmg, modelStep]
      refine ⟨hspec.2.2, wf_sort hw2, fun w => ?_, fun w => ?_⟩
      · rw [hspec.1 w, Finset.mem_union, hm1 w, hm2 w]
      · rw [mem_iter_sort, hm2 w]

theorem runSim : ∀ (acts : List SetAction) (m : Finset Nat × Finset Nat) (i : IntSet × IntSet),
    i.1.wf = true → i.2.wf = true →
    (∀ v, v ∈ i.1.iter ↔ v ∈ m.1) → (∀ v, v ∈ i.2.iter ↔ v ∈ m.2) →
    (runImpl i acts).2 = (runModel m acts).2 ∧
    (runImpl i acts).1.1.wf = true ∧ (runImpl i acts).1.2.wf = true ∧
    (∀ v, v ∈ (runImpl i acts).1.1.iter ↔ v ∈ (runModel m acts).1.1) ∧
    (∀ v, v ∈ (runImpl i acts).1.2.iter ↔ v ∈ (runModel m acts).1.2) := by
  intro acts
  induction acts with
  | nil =>
    intro m i hw1 hw2 hm1 hm2
    exact ⟨rfl, hw1, hw2, hm1, hm2⟩
  | cons a rest ih =>
    intro m i hw1 hw2 hm1 hm2
    have hstep := stepSim a m i hw1 hw2 hm1 hm2
    rcases hi : implStep i a with ⟨i', ob⟩
    rcases hm : modelStep m a with ⟨m', ob'⟩
    rw [hi, hm] at hstep
    simp only at hstep
    rcases hstep with ⟨hob, hw1', hw2', hm1', hm2'⟩
    have hrest := ih m' i' hw1' hw2' hm1' hm2'
    rcases hri : runImpl i' rest with ⟨fi, obs⟩
    rcases hrm : runModel m' rest with ⟨fm, obs'⟩
    rw [hri, hrm] at hrest
    simp only at hrest
    refine ⟨?_, ?_, ?_, ?_, ?_⟩ <;>
      simp only [runImpl, runModel, hi, hm, hri, hrm]
    · rw [hob, hrest.1]
    · exact hrest.2.1
    · exact hrest.2.2.1
    · exact hrest.2.2.2.1
    · exact hrest.2.2.2.2

/-! ## Claims about `IntSet` -/

/-- C2: for every action sequence of the fuzz harness over values below
2^16, the `IntSet` pair and the naive finite-set oracle agree in lockstep
on every observation (`contains` probes, the removal probes, and every
`merge` `changed` flag), and the sequence yielded by `iter()`, after
sorting and removing duplicates, equals each oracle's element set. -/
theorem C2_intset_oracle (acts : List SetAction) (_hb : ∀ a ∈ acts, a.bounded) :
    (runImpl (.Empty, .Empty) acts).2 = (runModel (∅, ∅) acts).2 ∧
    (∀ v, v ∈ canon (runImpl (.Empty, .Empty) acts).1.1.iter ↔
      v ∈ (runModel (∅, ∅) acts).1.1) ∧
    (∀ v, v ∈ canon (runImpl (.Empty, .Empty) acts).1.2.iter ↔
      v ∈ (runModel (∅, ∅) acts).1.2) := by
  have h := runSim acts (∅, ∅) (.Empty, .Empty) rfl rfl
    (by intro v; simp [IntSet.iter]) (by intro v; simp [IntSet.iter])
  exact ⟨h.1, fun v => (mem_canon _ v).trans (h.2.2.2.1 v),
    fun v => (mem_canon _ v).trans (h.2.2.2.2 v)⟩

/-- Witness for C2 at a concrete action sequence. -/
theorem C2_intset_oracle_witness :
    (runImpl (.Empty, .Empty) [SetAction.AddLeft 600, SetAction.AddLeft 600,
        SetAction.MergeLeftToRight, SetAction.RightContains 600]).2 =
      (runModel (∅, ∅) [SetAction.AddLeft 600, SetAction.AddLeft 600,
        SetAction.MergeLeftToRight, SetAction.RightContains 600]).2 ∧
    (∀ v, v ∈ canon (runImpl (.Empty, .Empty) [SetAction.AddLeft 600,
        SetAction.AddLeft 600, SetAction.MergeLeftToRight,
        SetAction.RightContains 600]).1.1.iter ↔
      v ∈ (runModel (∅, ∅) [SetAction.AddLeft 600, SetAction.AddLeft 600,
        SetAction.MergeLeftToRight, SetAction.RightContains 600]).1.1) ∧
    (∀ v, v ∈ canon (runImpl (.Empty, .Empty) [SetAction.AddLeft 600,
        SetAction.AddLeft 600, SetAction.MergeLeftToRight,
        SetAction.RightContains 600]).1.2.iter ↔
      v ∈ (runModel (∅, ∅) [SetAction.AddLeft 600, SetAction.AddLeft 600,
        SetAction.MergeLeftToRight, SetAction.RightContains 600]).1.2) :=
  C2_intset_oracle _ (by decide)

/-- C3: `merge` computes the union of elements, returns `true` exactly
when some element of `other` was new, and merging the same `other` again
immediately returns `false` and leaves the elements unchanged. -/
theorem C3_merge_union (s o : IntSet) (hs : s.wf = true) (ho : o.wf = true) :
    (∀ v, v ∈ (s.merge o).1.iter ↔ v ∈ s.iter ∨ v ∈ o.iter) ∧
    ((s.merge o).2.2 = true ↔ ∃ v, v ∈ o.iter ∧ v ∉ s.iter) ∧
    ((s.merge o).1.merge (s.merge o).2.1).2.2 = false ∧
    (∀ v, v ∈ ((s.merge o).1.merge (s.merge o).2.1).1.iter ↔
      v ∈ (s.merge o).1.iter) := by
  have hspec := merge_spec hs ho
  have ho1w : (s.merge o).2.1.wf = true := by rw [merge_snd]; exact wf_sort ho
  have ho1m : ∀ v, v ∈ (s.merge o).2.1.iter ↔ v ∈ o.iter := by
    intro v; rw [merge_snd]; exact mem_iter_sort o v
  have hspec2 := merge_spec hspec.2.2 ho1w
  have hsub : ∀ v, v ∈ (s.merge o).2.1.iter → v ∈ (s.merge o).1.iter := by
    intro v hv
    exact (hspec.1 v).2 (Or.inr ((ho1m v).1 hv))
  refine ⟨hspec.1, hspec.2.1, ?_, ?_⟩
  · rw [Bool.eq_false_iff]
    intro hch
    rcases (hspec2.2.1).1 hch with ⟨v, h1, h2⟩
    exact h2 (hsub v h1)
  · intro v
    rw [hspec2.1 v]
    constructor
    · rintro (h | h)
      · exact h
      · exact hsub v h
    · exact Or.inl

/-- Witness for C3 at concrete sets. -/
theorem C3_merge_union_witness :
    (∀ v, v ∈ ((IntSet.Sorted [1, 3]).merge (.Sorted [600])).1.iter ↔
      v ∈ (IntSet.Sorted [1, 3]).iter ∨ v ∈ (IntSet.Sorted [600]).iter) ∧
    (((IntSet.Sorted [1, 3]).merge (.Sorted [600])).2.2 = true ↔
      ∃ v, v ∈ (IntSet.Sorted [600]).iter ∧ v ∉ (IntSet.Sorted [1, 3]).iter) ∧
    ((((IntSet.Sorted [1, 3]).merge (.Sorted [600])).1.merge
        ((IntSet.Sorted [1, 3]).merge (.Sorted [600])).2.1).2.2 = false) ∧
    (∀ v, v ∈ (((IntSet.Sorted [1, 3]).merge (.Sorted [600])).1.merge
        ((IntSet.Sorted [1, 3]).merge (.Sorted [600])).2.1).1.iter ↔
      v ∈ ((IntSet.Sorted [1, 3]).merge (.Sorted [600])).1.iter) :=
  C3_merge_union _ _ (by decide) (by decide)

/-- C4, counterexample: an `Unsorted` set reachable through the public API
whose `iter()` sequence contains a duplicate, refuting "no duplicates even
in `Unsorted` mode". -/
theorem C4_iter_dup_counterexample :
    ((IntSet.new.add 600).add 600).iter = [600, 600] ∧
    ¬ ((IntSet.new.add 600).add 600).iter.Nodup := by
  constructor
  · rfl
  · decide

/-- C4, amended: in every representation mode other than `Unsorted`
(where duplicates can occur and callers must deduplicate, as the fuzz
harness does), `iter()` yields each element exactly once. -/
theorem C4_iter_nodup (s : IntSet) (hw : s.wf = true)
    (hu : s.isUnsortedMode = false) : s.iter.Nodup := by
  cases s with
  | Empty => simp [IntSet.iter]
  | Small bv => exact nodup_bvIter bv
  | Unsorted l => simp [IntSet.isUnsortedMode] at hu
  | Sorted l => exact nodup_of_wf_sorted hw

/-- Witness for the amended C4 at a concrete set. -/
theorem C4_iter_nodup_witness : (IntSet.Sorted [1, 5]).iter.Nodup :=
  C4_iter_nodup _ (by decide) (by decide)

/-- C10: `contains` and `sort` only change the internal representation
and never the elements, and `merge` never changes the elements of the
`other` set it sorts in place. -/
theorem C10_frame_effects (s o : IntSet) (v : Nat) :
    (∀ w, w ∈ (s.contains v).1.iter ↔ w ∈ s.iter) ∧
    (∀ w, w ∈ s.sort.iter ↔ w ∈ s.iter) ∧
    (∀ w, w ∈ (s.merge o).2.1.iter ↔ w ∈ o.iter) :=
  ⟨contains_fst_mem s v, mem_iter_sort s,
    fun w => by rw [merge_snd]; exact mem_iter_sort o w⟩

/-! ## CFG intake: error-path lemmas -/

theorem critEdgeGo_error_sound {f : Func} {b : Nat} :
    ∀ (i : Nat) (l : List Nat) (pp : List Nat) (p b' : Nat),
    critEdgeGo f b i l pp = .error (.CritEdge p b') →
    b' = b ∧ p ∈ l ∧ (f.block_succs p).length > 1 := by
  intro i l
  induction l generalizing i with
  | nil => intro pp p b' h; simp [critEdgeGo] at h
  | cons q rest ih =>
    intro pp p b' h
    rw [critEdgeGo] at h
    by_cases hq : (f.block_succs q).length > 1
    · rw [if_pos hq] at h
      have := Except.error.inj h
      rcases RegAllocError.CritEdge.inj this.symm with ⟨h1, h2⟩
      exact ⟨h2, by rw [h1]; exact List.mem_cons_self _ _, by rw [h1]; exact hq⟩
    · rw [if_neg hq] at h
      rcases ih (i + 1) _ p b' h with ⟨h1, h2, h3⟩
      exact ⟨h1, List.mem_cons_of_mem _ h2, h3⟩

theorem critEdgeGo_error_complete {f : Func} {b : Nat} :
    ∀ (i : Nat) (l : List Nat) (pp : List Nat),
    (∃ p ∈ l, (f.block_succs p).length > 1) →
    ∃ p, critEdgeGo f b i l pp = .error (.CritEdge p b) := by
  intro i l
  induction l generalizing i with
  | nil => rintro pp ⟨p, hp, _⟩; simp at hp
  | cons q rest ih =>
    rintro pp ⟨p, hp, hbig⟩
    rw [critEdgeGo]
    by_cases hq : (f.block_succs q).length > 1
    · exact ⟨q, by rw [if_pos hq]⟩
    · rw [if_neg hq]
      rcases List.mem_cons.1 hp with rfl | hp'
      · exact absurd hbig hq
      · exact ih (i + 1) _ ⟨p, hp', hbig⟩

theorem critEdgeGo_ok_no_viol {f : Func} {b : Nat} :
    ∀ (i : Nat) (l : List Nat) (pp pp' : List Nat),
    critEdgeGo f b i l pp = .ok pp' → ∀ p ∈ l, ¬ (f.block_succs p).length > 1 := by
  intro i l
  induction l generalizing i with
  | nil => intro pp pp' _ p hp; simp at hp
  | cons q rest ih =>
    intro pp pp' h p hp
    rw [critEdgeGo] at h
    by_cases hq : (f.block_succs q).length > 1
    · rw [if_pos hq] at h; cases h
    · rw [if_neg hq] at h
      rcases List.mem_cons.1 hp with rfl | hp'
      · exact hq
      · exact ih (i + 1) _ _ h p hp'

theorem critEdgeGo_error_shape {f : Func} {b : Nat} :
    ∀ (i : Nat) (l : List Nat) (pp : List Nat) (e : RegAllocError),
    critEdgeGo f b i l pp = .error e → ∃ p, e = .CritEdge p b := by
  intro i l
  induction l generalizing i with
  | nil => intro pp e h; simp [critEdgeGo] at h
  | cons q rest ih =>
    intro pp e h
    rw [critEdgeGo] at h
    by_cases hq : (f.block_succs q).length > 1
    · rw [if_pos hq] at h
      exact ⟨q, (Except.error.inj h).symm⟩
    · rw [if_neg hq] at h
      exact ih (i + 1) _ _ h

theorem blockStep_error_sound {f : Func} {st : List Nat × List Nat × List Nat} {b : Nat}
    {e : RegAllocError} (h : blockStep f st b = .error e) :
    (∃ p, e = .CritEdge p b ∧ predCount f b > 1 ∧ p ∈ f.block_preds b ∧
      (f.block_succs p).length > 1) ∨
    (e = .DisallowedBranchArg (f.block_last b) ∧
      (∃ s ∈ f.block_succs b, predCount f s > 1) ∧
      f.branch_blockparam_arg_offset b (f.block_last b) > 0) := by
  rcases st with ⟨pp, bin, bout⟩
  rw [blockStep] at h
  rcases hcrit : (if predCount f b > 1 then critEdgeGo f b 0 (f.block_preds b) pp
      else .ok pp) with e' | pp1
  · rw [hcrit] at h
    simp only at h
    have he : e' = e := Except.error.inj h
    subst he
    have hpc : predCount f b > 1 := by
      by_contra hpc
      rw [if_neg hpc] at hcrit
      cases hcrit
    rw [if_pos hpc] at hcrit
    rcases critEdgeGo_error_shape 0 _ pp _ hcrit with ⟨p, rfl⟩
    rcases critEdgeGo_error_sound 0 _ pp p b hcrit with ⟨_, h2, h3⟩
    exact Or.inl ⟨p, rfl, hpc, h2, h3⟩
  · rw [hcrit] at h
    simp only at h
    by_cases hcond : (((f.block_succs b).any fun s => decide (predCount f s > 1)) = true ∧
        f.branch_blockparam_arg_offset b (f.block_last b) > 0)
    · rw [if_pos hcond] at h
      have he := Except.error.inj h
      refine Or.inr ⟨he.symm, ?_, hcond.2⟩
      rcases List.any_eq_true.1 hcond.1 with ⟨s, hs1, hs2⟩
      exact ⟨s, hs1, by simpa using hs2⟩
    · rw [if_neg hcond] at h
      rcases hcb : countBackedges b (f.block_succs b) bin bout with ⟨bin2, bout2⟩
      rw [hcb] at h
      cases h

theorem blockStep_ok_no_viol {f : Func} {st st' : List Nat × List Nat × List Nat} {b : Nat}
    (h : blockStep f st b = .ok st') :
    (predCount f b > 1 → ∀ p ∈ f.block_preds b, ¬ (f.block_succs p).length > 1) ∧
    ¬ ((∃ s ∈ f.block_succs b, predCount f s > 1) ∧
      f.branch_blockparam_arg_offset b (f.block_last b) > 0) := by
  rcases st with ⟨pp, bin, bout⟩
  rw [blockStep] at h
  rcases hcrit : (if predCount f b > 1 then critEdgeGo f b 0 (f.block_preds b) pp
      else .ok pp) with e' | pp1
  · rw [hcrit] at h
    simp only at h
    cases h
  · rw [hcrit] at h
    simp only at h
    constructor
    · intro hpc p hp
      rw [if_pos hpc] at hcrit
      exact critEdgeGo_ok_no_viol 0 _ pp pp1 hcrit p hp
    · rintro ⟨⟨s, hs1, hs2⟩, hoff⟩
      rw [if_pos (And.intro (List.any_eq_true.2 ⟨s, hs1, by simpa using hs2⟩) hoff)] at h
      cases h

theorem blockStep_error_of_viol {f : Func} (st : List Nat × List Nat × List Nat) {b : Nat}
    (h : (predCount f b > 1 ∧ ∃ p ∈ f.block_preds b, (f.block_succs p).length > 1) ∨
      ((∃ s ∈ f.block_succs b, predCount f s > 1) ∧
        f.branch_blockparam_arg_offset b (f.block_last b) > 0)) :
    ∃ e, blockStep f st b = .error e := by
  rcases hres : blockStep f st b with e | st'
  · exact ⟨e, rfl⟩
  · exfalso
    have hnv := blockStep_ok_no_viol hres
    rcases h with ⟨hpc, p, hp, hbig⟩ | hbr
    · exact hnv.1 hpc p hp hbig
    · exact hnv.2 hbr

theorem blocksLoop_error_sound {f : Func} :
    ∀ (bs : List Nat) (st : List Nat × List Nat × List Nat) (e : RegAllocError),
    blocksLoop f bs st = .error e →
    ∃ b ∈ bs, ∃ st1, blockStep f st1 b = .error e := by
  intro bs
  induction bs with
  | nil => intro st e h; simp [blocksLoop] at h
  | cons b rest ih =>
    intro st e h
    rw [blocksLoop] at h
    rcases hstep : blockStep f st b with e' | st'
    · rw [hstep] at h
      simp only at h
      have he : e' = e := Except.error.inj h
      subst he
      exact ⟨b, List.mem_cons_self _ _, st, hstep⟩
    · rw [hstep] at h
      simp only at h
      rcases ih st' e h with ⟨b', hb', st1, hs1⟩
      exact ⟨b', List.mem_cons_of_mem _ hb', st1, hs1⟩

theorem blocksLoop_ok_no_viol {f : Func} :
    ∀ (bs : List Nat) (st st' : List Nat × List Nat × List Nat),
    blocksLoop f bs st = .ok st' →
    ∀ b ∈ bs, (predCount f b > 1 → ∀ p ∈ f.block_preds b, ¬ (f.block_succs p).length > 1) ∧
      ¬ ((∃ s ∈ f.block_succs b, predCount f s > 1) ∧
        f.branch_blockparam_arg_offset b (f.block_last b) > 0) := by
  intro bs
  induction bs with
  | nil => intro st st' _ b hb; simp at hb
  | cons b0 rest ih =>
    intro st st' h b hb
    rw [blocksLoop] at h
    rcases hstep : blockStep f st b0 with e' | st1
    · rw [hstep] at h; simp only at h; cases h
    · rw [hstep] at h
      simp only at h
      rcases List.mem_cons.1 hb with rfl | hb'
      · exact blockStep_ok_no_viol hstep
      · exact ih st1 st' h b hb'

theorem blocksLoop_error_of_viol {f : Func} :
    ∀ (bs : List Nat) (st : List Nat × List Nat × List Nat) (b : Nat), b ∈ bs →
    ((predCount f b > 1 ∧ ∃ p ∈ f.block_preds b, (f.block_succs p).length > 1) ∨
      ((∃ s ∈ f.block_succs b, predCount f s > 1) ∧
        f.branch_blockparam_arg_offset b (f.block_last b) > 0)) →
    ∃ e, blocksLoop f bs st = .error e := by
  intro bs
  induction bs with
  | nil => intro st b hb; simp at hb
  | cons b0 rest ih =>
    intro st b hb hviol
    rw [blocksLoop]
    rcases hstep : blockStep f st b0 with e' | st1
    · exact ⟨e', rfl⟩
    · rcases List.mem_cons.1 hb with rfl | hb'
      · rcases blockStep_error_of_viol st hviol with ⟨e, he⟩
        rw [hstep] at he
        cases he
      · rcases ih st1 b hb' hviol with ⟨e, he⟩
        exact ⟨e, he⟩

theorem new_error_iff {f : Func} {e : RegAllocError} :
    CFGInfo.new f = .error e ↔
    blocksLoop f (List.range f.blocks)
      (List.replicate f.blocks 0, List.replicate f.blocks 0,
        List.replicate f.blocks 0) = .error e := by
  rw [CFGInfo.new]
  rcases h : blocksLoop f (List.range f.blocks)
      (List.replicate f.blocks 0, List.replicate f.blocks 0,
        List.replicate f.blocks 0) with e' | st
  · simp
  · rcases st with ⟨pp, bin, bout⟩
    simp only
    rcases hd : loopDepthGo (bin.zip bout) [] 0 with _ | ⟨d0, rest⟩ <;> simp

/-! ## Claims about the intake checks -/

/-- C1, amended: every `CritEdge(P, B)` error returned by `CFGInfo::new`
names an actual critical-edge violation (so a function with no such
violation never gets a `CritEdge` error), and whenever some violation
exists `CFGInfo::new` returns an intake error — though the error actually
returned can be a `DisallowedBranchArg` raised earlier in the block scan
rather than the `CritEdge` itself. -/
theorem C1_critEdge_behavior (f : Func) :
    (∀ p b, CFGInfo.new f = .error (.CritEdge p b) → critViolPair f p b) ∧
    ((∃ p b, critViolPair f p b) → ∃ e, CFGInfo.new f = .error e) := by
  constructor
  · intro p b h
    rw [new_error_iff] at h
    rcases blocksLoop_error_sound _ _ _ h with ⟨b0, hb0, st1, hstep⟩
    rcases blockStep_error_sound hstep with ⟨p', hp', hpc, hmem, hbig⟩ | ⟨heq, _, _⟩
    · rcases RegAllocError.CritEdge.inj hp' with ⟨h1, h2⟩
      subst h1; subst h2
      unfold critViolPair
      exact ⟨List.mem_range.1 hb0, hpc, hmem, hbig⟩
    · exact RegAllocError.noConfusion heq
  · rintro ⟨p, b, hv⟩
    unfold critViolPair at hv
    rcases blocksLoop_error_of_viol (List.range f.blocks) _ b (List.mem_range.2 hv.1)
      (Or.inl ⟨hv.2.1, p, hv.2.2.1, hv.2.2.2⟩) with ⟨e, he⟩
    exact ⟨e, new_error_iff.2 he⟩

/-- C1, counterexample to the claim as stated: `exC1` has a critical-edge
violation (block 1 has two predecessors and predecessor 2 has two
successors), yet `CFGInfo::new` does not return a `CritEdge` error —
block 0's branch-argument violation is hit first in the scan. -/
theorem C1_critEdge_counterexample :
    critViolPair exC1 2 1 ∧ ∀ p b, CFGInfo.new exC1 ≠ .error (.CritEdge p b) := by
  refine ⟨by decide, ?_⟩
  intro p b h
  have h2 : CFGInfo.new exC1 = .error (.DisallowedBranchArg 0) := by decide
  rw [h2] at h
  exact RegAllocError.noConfusion (Except.error.inj h)

/-- Witness for the amended C1 at a concrete input (the completeness
direction, applied to a function with a critical-edge violation). -/
theorem C1_critEdge_witness : ∃ e, CFGInfo.new exC5 = .error e :=
  (C1_critEdge_behavior exC5).2 ⟨0, 1, by decide⟩

/-- C5, amended: every `DisallowedBranchArg(i)` error returned by
`CFGInfo::new` is the last instruction of a block with a multi-pred
successor and positive branch-arg offset (so a block whose successors all
have a single predecessor never raises one), and whenever some
branch-argument violation exists `CFGInfo::new` returns an intake error —
though the error actually returned can be a `CritEdge` detected earlier in
the scan. -/
theorem C5_branchArg_behavior (f : Func) :
    (∀ i, CFGInfo.new f = .error (.DisallowedBranchArg i) →
      ∃ b, branchViol f b ∧ i = f.block_last b) ∧
    ((∃ b, branchViol f b) → ∃ e, CFGInfo.new f = .error e) := by
  constructor
  · intro i h
    rw [new_error_iff] at h
    rcases blocksLoop_error_sound _ _ _ h with ⟨b0, hb0, st1, hstep⟩
    rcases blockStep_error_sound hstep with ⟨p', hp', _, _, _⟩ | ⟨heq, hex, hoff⟩
    · exact RegAllocError.noConfusion hp'
    · refine ⟨b0, ?_, RegAllocError.DisallowedBranchArg.inj heq⟩
      unfold branchViol
      exact ⟨List.mem_range.1 hb0, hex, hoff⟩
  · rintro ⟨b, hv⟩
    unfold branchViol at hv
    rcases blocksLoop_error_of_viol (List.range f.blocks) _ b (List.mem_range.2 hv.1)
      (Or.inr ⟨hv.2.1, hv.2.2⟩) with ⟨e, he⟩
    exact ⟨e, new_error_iff.2 he⟩

/-- C5, counterexample to the claim as stated: in `exC5`, block 1's
branch carries an argument toward its multi-pred successor 1, yet
`CFGInfo::new` does not return a `DisallowedBranchArg` error — block 1's
own critical-edge check (edge `0→1`) fires first. -/
theorem C5_branchArg_counterexample :
    branchViol exC5 1 ∧ ∀ i, CFGInfo.new exC5 ≠ .error (.DisallowedBranchArg i) := by
  refine ⟨by decide, ?_⟩
  intro i h
  have h2 : CFGInfo.new exC5 = .error (.CritEdge 0 1) := by decide
  rw [h2] at h
  exact RegAllocError.noConfusion (Except.error.inj h)

/-- Witness for the amended C5 at a concrete input (the completeness
direction, applied to a function with a branch-argument violation). -/
theorem C5_branchArg_witness : ∃ e, CFGInfo.new exC1 = .error e :=
  (C5_branchArg_behavior exC1).2 ⟨0, by decide⟩

/-! ## CFG intake: success-path structure -/

theorem critEdgeGo_ok_length {f : Func} {b : Nat} :
    ∀ (i : Nat) (l : List Nat) (pp pp' : List Nat),
    critEdgeGo f b i l pp = .ok pp' → pp'.length = pp.length := by
  intro i l
  induction l generalizing i with
  | nil =>
    intro pp pp' h
    rw [critEdgeGo] at h
    rw [← Except.ok.inj h]
  | cons q rest ih =>
    intro pp pp' h
    rw [critEdgeGo] at h
    by_cases hq : (f.block_succs q).length > 1
    · rw [if_pos hq] at h; cases h
    · rw [if_neg hq] at h
      rw [ih _ _ _ h, List.length_set]

theorem countBackedges_lengths (b : Nat) :
    ∀ (ss bin bout : List Nat),
    (countBackedges b ss bin bout).1.length = bin.length ∧
    (countBackedges b ss bin bout).2.length = bout.length := by
  intro ss
  induction ss with
  | nil => intro bin bout; exact ⟨rfl, rfl⟩
  | cons s rest ih =>
    intro bin bout
    rw [countBackedges]
    by_cases hs : s ≤ b
    · rw [if_pos hs]
      rcases ih (listIncr bin s) (listIncr bout b) with ⟨h1, h2⟩
      rw [h1, h2, length_listIncr, length_listIncr]
      exact ⟨rfl, rfl⟩
    · rw [if_neg hs]; exact ih bin bout

theorem blockStep_ok_parts {f : Func} {pp bin bout pp' bin' bout' : List Nat} {b : Nat}
    (h : blockStep f (pp, bin, bout) b = .ok (pp', bin', bout')) :
    bin' = (countBackedges b (f.block_succs b) bin bout).1 ∧
    bout' = (countBackedges b (f.block_succs b) bin bout).2 ∧
    ((predCount f b > 1 ∧ critEdgeGo f b 0 (f.block_preds b) pp = .ok pp') ∨
      (¬ predCount f b > 1 ∧ pp' = pp)) := by
  rw [blockStep] at h
  rcases hcrit : (if predCount f b > 1 then critEdgeGo f b 0 (f.block_preds b) pp
      else .ok pp) with e' | pp1
  · rw [hcrit] at h; simp only at h; cases h
  · rw [hcrit] at h
    simp only at h
    by_cases hcond : (((f.block_succs b).any fun s => decide (predCount f s > 1)) = true ∧
        f.branch_blockparam_arg_offset b (f.block_last b) > 0)
    · rw [if_pos hcond] at h; cases h
    · rw [if_neg hcond] at h
      rcases hcb : countBackedges b (f.block_succs b) bin bout with ⟨bin2, bout2⟩
      rw [hcb] at h
      have h4 := Except.ok.inj h
      rw [Prod.mk.injEq, Prod.mk.injEq] at h4
      obtain ⟨e1, e2, e3⟩ := h4
      refine ⟨e2.symm, e3.symm, ?_⟩
      by_cases hpc : predCount f b > 1
      · rw [if_pos hpc] at hcrit
        exact Or.inl ⟨hpc, by rw [e1] at hcrit; exact hcrit⟩
      · rw [if_neg hpc] at hcrit
        exact Or.inr ⟨hpc, by rw [← e1, ← Except.ok.inj hcrit]⟩

theorem blockStep_ok_lengths {f : Func} {pp bin bout pp' bin' bout' : List Nat} {b : Nat}
    (h : blockStep f (pp, bin, bout) b = .ok (pp', bin', bout')) :
    pp'.length = pp.length ∧ bin'.length = bin.length ∧ bout'.length = bout.length := by
  rcases blockStep_ok_parts h with ⟨h1, h2, h3⟩
  refine ⟨?_, by rw [h1]; exact (countBackedges_lengths b _ bin bout).1,
    by rw [h2]; exact (countBackedges_lengths b _ bin bout).2⟩
  rcases h3 with ⟨_, hcrit⟩ | ⟨_, rfl⟩
  · exact critEdgeGo_ok_length 0 _ pp pp' hcrit
  · rfl

theorem blocksLoop_ok_lengths {f : Func} :
    ∀ (bs : List Nat) (pp bin bout pp' bin' bout' : List Nat),
    blocksLoop f bs (pp, bin, bout) = .ok (pp', bin', bout') →
    pp'.length = pp.length ∧ bin'.length = bin.length ∧ bout'.length = bout.length := by
  intro bs
  induction bs with
  | nil =>
    intro pp bin bout pp' bin' bout' h
    rw [blocksLoop] at h
    have h4 := Except.ok.inj h
    rw [Prod.mk.injEq, Prod.mk.injEq] at h4
    obtain ⟨e1, e2, e3⟩ := h4
    rw [← e1, ← e2, ← e3]
    exact ⟨rfl, rfl, rfl⟩
  | cons b rest ih =>
    intro pp bin bout pp' bin' bout' h
    rw [blocksLoop] at h
    rcases hstep : blockStep f (pp, bin, bout) b with e' | ⟨pp1, bin1, bout1⟩
    · rw [hstep] at h; cases h
    · rw [hstep] at h
      simp only at h
      rcases blockStep_ok_lengths hstep with ⟨l1, l2, l3⟩
      rcases ih pp1 bin1 bout1 pp' bin' bout' h with ⟨m1, m2, m3⟩
      exact ⟨m1.trans l1, m2.trans l2, m3.trans l3⟩

theorem loopDepthGo_length : ∀ (pairs : List (Nat × Nat)) (stack : List Nat) (d : Nat),
    (loopDepthGo pairs stack d).length = pairs.length := by
  intro pairs
  induction pairs with
  | nil => intro stack d; rfl
  | cons p rest ih =>
    rcases p with ⟨inb, outb⟩
    intro stack d
    rw [loopDepthGo]
    rcases hpush : (if inb > 0 then (inb :: stack, d + 1) else (stack, d)) with ⟨st1, d1⟩
    rcases hdr : drainBackedges outb st1 d1 with ⟨st2, d2⟩
    simp [ih]

theorem new_ok_some_parts {f : Func} {info : CFGInfo}
    (h : CFGInfo.new f = .ok (some info)) :
    ∃ pp bin bout,
      blocksLoop f (List.range f.blocks)
        (List.replicate f.blocks 0, List.replicate f.blocks 0,
          List.replicate f.blocks 0) = .ok (pp, bin, bout) ∧
      info.block_entry =
        (List.range f.blocks).map (fun b => ProgPoint.before (f.block_first b)) ∧
      info.pred_pos = pp ∧
      info.approx_loop_depth = loopDepthGo (bin.zip bout) [] 0 ∧
      ∃ d0 rest, loopDepthGo (bin.zip bout) [] 0 = d0 :: rest ∧
        info.loop_transition_points =
          loopTransGo d0 ((loopDepthGo (bin.zip bout) [] 0).zip info.block_entry) := by
  rw [CFGInfo.new] at h
  rcases hbl : blocksLoop f (List.range f.blocks)
      (List.replicate f.blocks 0, List.replicate f.blocks 0,
        List.replicate f.blocks 0) with e | ⟨pp, bin, bout⟩
  · rw [hbl] at h; cases h
  · rw [hbl] at h
    simp only at h
    rcases hd : loopDepthGo (bin.zip bout) [] 0 with _ | ⟨d0, rest⟩
    · rw [hd] at h
      exact Option.noConfusion (Except.ok.inj h)
    · rw [hd] at h
      simp only at h
      have h2 := Option.some.inj (Except.ok.inj h)
      refine ⟨pp, bin, bout, rfl, ?_, ?_, ?_, d0, rest, hd, ?_⟩ <;> rw [← h2]
      · rw [hd]
      · rw [hd]

/-- C9: the loop-transition computation reads `approx_loop_depth[0]`; for
a function with at least one block that read is in bounds and `CFGInfo::new`
never takes the out-of-bounds branch (modelled as `.ok none`), while for a
function with zero blocks the read is out of bounds and that branch is
taken. -/
theorem C9_loop_transition_guard (f : Func) :
    (1 ≤ f.blocks → CFGInfo.new f ≠ .ok none) ∧
    (f.blocks = 0 → CFGInfo.new f = .ok none) := by
  constructor
  · intro hge h
    rw [CFGInfo.new] at h
    rcases hbl : blocksLoop f (List.range f.blocks)
        (List.replicate f.blocks 0, List.replicate f.blocks 0,
          List.replicate f.blocks 0) with e | ⟨pp, bin, bout⟩
    · rw [hbl] at h; cases h
    · rw [hbl] at h
      simp only at h
      have hlen : (loopDepthGo (bin.zip bout) [] 0).length = f.blocks := by
        rw [loopDepthGo_length, List.length_zip]
        rcases blocksLoop_ok_lengths (List.range f.blocks) (List.replicate f.blocks 0)
          (List.replicate f.blocks 0) (List.replicate f.blocks 0) pp bin bout hbl
          with ⟨_, h2, h3⟩
        rw [h2, h3, List.length_replicate]
        exact Nat.min_self _
      rcases hd : loopDepthGo (bin.zip bout) [] 0 with _ | ⟨d0, rest⟩
      · rw [hd] at hlen
        simp at hlen
        omega
      · rw [hd] at h
        exact Option.noConfusion (Except.ok.inj h)
  · intro h0
    rw [CFGInfo.new, h0]
    simp [blocksLoop, loopDepthGo]

/-- Witness for C9: a one-block-or-more function avoids the
out-of-bounds branch, a zero-block function takes it. -/
theorem C9_loop_transition_guard_witness :
    CFGInfo.new exOk ≠ .ok none ∧ CFGInfo.new exZero = .ok none :=
  ⟨(C9_loop_transition_guard exOk).1 (by decide),
    (C9_loop_transition_guard exZero).2 rfl⟩

theorem loopTransGo_cons (last d : Nat) (e : ProgPoint) (rest : List (Nat × ProgPoint)) :
    loopTransGo last ((d, e) :: rest) =
      (if last < d then [e] else []) ++ loopTransGo d rest := by
  rw [loopTransGo]
  by_cases h : d > last
  · rw [if_pos h, if_pos h]; rfl
  · rw [if_neg h, if_neg h]; rfl

theorem loopTransGo_zip : ∀ (ds : List Nat) (es : List ProgPoint) (prev : Nat),
    loopTransGo prev (ds.zip es) =
      ((((prev :: ds).zip ds).zip es).filter (fun p => decide (p.1.1 < p.1.2))).map
        (fun p => p.2) := by
  intro ds
  induction ds with
  | nil => intro es prev; simp [loopTransGo]
  | cons d rest ih =>
    intro es prev
    cases es with
    | nil => simp [loopTransGo]
    | cons e es' =>
      rw [List.zip_cons_cons, loopTransGo_cons, ih es' d,
        List.zip_cons_cons, List.zip_cons_cons, List.filter_cons]
      by_cases h : prev < d
      · simp [h]
      · simp [h]

theorem loopTransGo_eq_specTransitions (d0 : Nat) (rest : List Nat)
    (entries : List ProgPoint) :
    loopTransGo d0 ((d0 :: rest).zip entries) = specTransitions (d0 :: rest) entries := by
  cases entries with
  | nil => simp [loopTransGo, specTransitions]
  | cons e0 es =>
    rw [List.zip_cons_cons, loopTransGo_cons, if_neg (lt_irrefl d0),
      List.nil_append, loopTransGo_zip rest es d0]
    rfl

/-- C7: on a successful intake, `loop_transition_points` contains exactly
the block-entry program points of the blocks whose approximate loop depth
strictly exceeds that of the immediately preceding block, in block
order. -/
theorem C7_loop_transitions (f : Func) (info : CFGInfo)
    (h : CFGInfo.new f = .ok (some info)) :
    info.loop_transition_points =
      specTransitions info.approx_loop_depth info.block_entry := by
  rcases new_ok_some_parts h with ⟨pp, bin, bout, hbl, hentry, hpp, hdep, d0, rest, hd, hltp⟩
  rw [hltp, hdep, hd]
  exact loopTransGo_eq_specTransitions d0 rest info.block_entry

/-- Witness for C7 at a concrete successful intake. -/
theorem C7_loop_transitions_witness :
    (CFGInfo.mk [ProgPoint.before 0, ProgPoint.before 1]
        [ProgPoint.after 0, ProgPoint.after 1] [0, 1] [0, 1]
        [ProgPoint.before 1]).loop_transition_points =
      specTransitions
        (CFGInfo.mk [ProgPoint.before 0, ProgPoint.before 1]
          [ProgPoint.after 0, ProgPoint.after 1] [0, 1] [0, 1]
          [ProgPoint.before 1]).approx_loop_depth
        (CFGInfo.mk [ProgPoint.before 0, ProgPoint.before 1]
          [ProgPoint.after 0, ProgPoint.after 1] [0, 1] [0, 1]
          [ProgPoint.before 1]).block_entry :=
  C7_loop_transitions exOk _ (by decide)

/-! ## CFG intake: loop-depth computation -/

theorem nth_eq_getElem {l : List Nat} {i : Nat} (h : i < l.length) : nth l i = l[i] := by
  unfold nth
  rw [List.getD_eq_getElem?_getD, List.getElem?_eq_getElem h]
  rfl

theorem nth_replicate (n v : Nat) : nth (List.replicate n 0) v = 0 := by
  unfold nth
  rcases lt_or_ge v n with h | h
  · rw [List.getD_eq_getElem?_getD, List.getElem?_replicate]
    simp [h]
  · rw [List.getD_eq_getElem?_getD,
      List.getElem?_eq_none (by rw [List.length_replicate]; omega)]
    rfl

theorem countBackedges_nth_bin (b : Nat) :
    ∀ (ss bin bout : List Nat), (∀ s ∈ ss, s < bin.length) → ∀ v,
    nth (countBackedges b ss bin bout).1 v =
      nth bin v + ((ss.filter (fun s => s == v && s ≤ b)).length) := by
  intro ss
  induction ss with
  | nil => intro bin bout _ v; simp [countBackedges]
  | cons s rest ih =>
    intro bin bout hrange v
    rw [countBackedges, List.filter_cons]
    by_cases hs : s ≤ b
    · rw [if_pos hs]
      have hr : ∀ t ∈ rest, t < (listIncr bin s).length := by
        intro t ht
        rw [listIncr, List.length_set]
        exact hrange t (List.mem_cons_of_mem _ ht)
      rw [ih (listIncr bin s) (listIncr bout b) hr v]
      by_cases hv : s = v
      · subst hv
        rw [nth_listIncr_self (hrange s (List.mem_cons_self _ _)),
          if_pos (by simp [hs])]
        simp only [List.length_cons]
        omega
      · rw [nth_listIncr_ne (fun hh => hv hh.symm),
          if_neg (by simp [hv])]
    · rw [if_neg hs, ih bin bout (fun t ht => hrange t (List.mem_cons_of_mem _ ht)) v,
        if_neg (by simp [hs])]

theorem countBackedges_nth_bout (b : Nat) :
    ∀ (ss bin bout : List Nat), b < bout.length → ∀ v,
    nth (countBackedges b ss bin bout).2 v =
      nth bout v + (if v = b then ((ss.filter (fun s => decide (s ≤ b))).length) else 0) := by
  intro ss
  induction ss with
  | nil =>
    intro bin bout _ v
    simp [countBackedges]
  | cons s rest ih =>
    intro bin bout hb v
    rw [countBackedges, List.filter_cons]
    by_cases hs : s ≤ b
    · rw [if_pos hs]
      have hb' : b < (listIncr bout b).length := by
        rw [listIncr, List.length_set]; exact hb
      rw [ih (listIncr bin s) (listIncr bout b) hb' v]
      have hsd : decide (s ≤ b) = true := by simpa using hs
      by_cases hv : v = b
      · subst hv
        rw [nth_listIncr_self hb, if_pos rfl, if_pos rfl, if_pos hsd]
        simp only [List.length_cons]
        omega
      · rw [nth_listIncr_ne hv, if_neg hv, if_neg hv]
    · rw [if_neg hs, ih bin bout hb v]
      have hc : decide (s ≤ b) = false := by simp [hs]
      rw [hc]
      have hnf : ¬ ((false : Bool) = true) := by simp
      rw [if_neg hnf]

theorem blocksLoop_counts {f : Func} :
    ∀ (bs : List Nat) (pp bin bout pp' bin' bout' : List Nat),
    blocksLoop f bs (pp, bin, bout) = .ok (pp', bin', bout') →
    (∀ b ∈ bs, ∀ s ∈ f.block_succs b, s < bin.length) →
    (∀ b ∈ bs, b < bout.length) →
    ∀ v, nth bin' v = nth bin v +
        ((bs.map (fun b =>
          ((f.block_succs b).filter (fun s => s == v && s ≤ b)).length)).sum) ∧
      nth bout' v = nth bout v +
        ((bs.map (fun b => if v = b then
          ((f.block_succs b).filter (fun s => decide (s ≤ b))).length else 0)).sum) := by
  intro bs
  induction bs with
  | nil =>
    intro pp bin bout pp' bin' bout' h _ _ v
    rw [blocksLoop] at h
    have h4 := Except.ok.inj h
    rw [Prod.mk.injEq, Prod.mk.injEq] at h4
    obtain ⟨_, e2, e3⟩ := h4
    rw [← e2, ← e3]
    simp
  | cons b rest ih =>
    intro pp bin bout pp' bin' bout' h hin hout v
    rw [blocksLoop] at h
    rcases hstep : blockStep f (pp, bin, bout) b with e' | ⟨pp1, bin1, bout1⟩
    · rw [hstep] at h; cases h
    · rw [hstep] at h
      simp only at h
      rcases blockStep_ok_parts hstep with ⟨hbin1, hbout1, _⟩
      have hlen1 : bin1.length = bin.length := by
        rw [hbin1]; exact (countBackedges_lengths b _ bin bout).1
      have hlen2 : bout1.length = bout.length := by
        rw [hbout1]; exact (countBackedges_lengths b _ bin bout).2
      have hin' : ∀ c ∈ rest, ∀ s ∈ f.block_succs c, s < bin1.length := by
        intro c hc s hsm
        rw [hlen1]
        exact hin c (List.mem_cons_of_mem _ hc) s hsm
      have hout' : ∀ c ∈ rest, c < bout1.length := by
        intro c hc
        rw [hlen2]
        exact hout c (List.mem_cons_of_mem _ hc)
      rcases ih pp1 bin1 bout1 pp' bin' bout' h hin' hout' v with ⟨ih1, ih2⟩
      constructor
      · rw [ih1, hbin1,
          countBackedges_nth_bin b _ bin bout (hin b (List.mem_cons_self _ _)) v,
          List.map_cons, List.sum_cons]
        omega
      · rw [ih2, hbout1,
          countBackedges_nth_bout b _ bin bout (hout b (List.mem_cons_self _ _)) v,
          List.map_cons, List.sum_cons]
        omega

theorem sum_ite_range_zero (v : Nat) (g : Nat → Nat) :
    ∀ n, n ≤ v → ((List.range n).map (fun b => if v = b then g b else 0)).sum = 0 := by
  intro n
  induction n with
  | zero => intro _; simp
  | succ n ih =>
    intro h
    rw [List.range_succ, List.map_append, List.sum_append, ih (by omega)]
    simp
    omega

theorem sum_ite_range (v : Nat) (g : Nat → Nat) :
    ∀ n, v < n → ((List.range n).map (fun b => if v = b then g b else 0)).sum = g v := by
  intro n
  induction n with
  | zero => intro h; omega
  | succ n ih =>
    intro h
    rw [List.range_succ, List.map_append, List.sum_append]
    by_cases hv : v = n
    · subst hv
      rw [sum_ite_range_zero v g v le_rfl]
      simp
    · rw [ih (by omega)]
      simp [hv]

theorem drain_spec : ∀ (n : Nat) (stack : List Nat) (d : Nat), d = stack.length →
    drainBackedges n stack d = (specConsume n stack, (specConsume n stack).length) := by
  intro n
  induction n with
  | zero => intro stack d hd; rw [hd]; rfl
  | succ n ih =>
    intro stack d hd
    subst hd
    cases stack with
    | nil => rfl
    | cons t rest =>
      rw [drainBackedges, specConsume]
      by_cases h : t - 1 = 0
      · rw [if_pos h, if_pos h]
        exact ih rest _ (by simp)
      · rw [if_neg h, if_neg h]
        exact ih ((t - 1) :: rest) _ (by simp)

theorem loopDepthGo_cons (inb outb : Nat) (rest : List (Nat × Nat))
    (stack : List Nat) (d : Nat) :
    loopDepthGo ((inb, outb) :: rest) stack d =
      (if inb > 0 then d + 1 else d) ::
        loopDepthGo rest
          (drainBackedges outb (if inb > 0 then inb :: stack else stack)
            (if inb > 0 then d + 1 else d)).1
          (drainBackedges outb (if inb > 0 then inb :: stack else stack)
            (if inb > 0 then d + 1 else d)).2 := by
  rw [loopDepthGo]
  by_cases h : inb > 0 <;> simp [h]

theorem specLoopDepthGo_cons (inb outb : Nat) (rest : List (Nat × Nat))
    (stack : List Nat) :
    specLoopDepthGo ((inb, outb) :: rest) stack =
      (if inb > 0 then inb :: stack else stack).length ::
        specLoopDepthGo rest
          (specConsume outb (if inb > 0 then inb :: stack else stack)) := by
  rw [specLoopDepthGo]

theorem loopDepthGo_spec : ∀ (pairs : List (Nat × Nat)) (stack : List Nat) (d : Nat),
    d = stack.length → loopDepthGo pairs stack d = specLoopDepthGo pairs stack := by
  intro pairs
  induction pairs with
  | nil => intro stack d _; rfl
  | cons p rest ih =>
    rcases p with ⟨inb, outb⟩
    intro stack d hd
    subst hd
    rw [loopDepthGo_cons, specLoopDepthGo_cons]
    have hd1 : (if inb > 0 then stack.length + 1 else stack.length) =
        (if inb > 0 then inb :: stack else stack).length := by
      by_cases h : inb > 0 <;> simp [h]
    rw [hd1, drain_spec outb _ _ rfl]
    exact congrArg _ (ih _ _ rfl)

/-- C6: on a successful intake, `approx_loop_depth` equals the depth
sequence produced by the spec's algorithm: classify edges with successor
index ≤ source index as back-edges, count them entering and leaving each
block, and scan the blocks with a stack of outstanding back-edge counts
whose depth is the loop depth. -/
theorem C6_approx_loop_depth (f : Func) (info : CFGInfo) (hR : FuncInRange f)
    (h : CFGInfo.new f = .ok (some info)) :
    info.approx_loop_depth = specLoopDepths f := by
  rcases new_ok_some_parts h with ⟨pp, bin, bout, hbl, hentry, hpp, hdep, _⟩
  rcases blocksLoop_ok_lengths (List.range f.blocks) (List.replicate f.blocks 0)
    (List.replicate f.blocks 0) (List.replicate f.blocks 0) pp bin bout hbl
    with ⟨hl1, hl2, hl3⟩
  rw [List.length_replicate] at hl2 hl3
  have hcounts := blocksLoop_counts (List.range f.blocks) (List.replicate f.blocks 0)
    (List.replicate f.blocks 0) (List.replicate f.blocks 0) pp bin bout hbl
    (by
      intro b hb s hs
      rw [List.length_replicate]
      exact (hR b (List.mem_range.1 hb)).2 s hs)
    (by
      intro b hb
      rw [List.length_replicate]
      exact List.mem_range.1 hb)
  have hzip : bin.zip bout =
      (List.range f.blocks).map (fun b => (specBackIn f b, specBackOut f b)) := by
    apply List.ext_getElem
    · rw [List.length_zip, hl2, hl3, List.length_map, List.length_range]
      exact Nat.min_self _
    · intro i h1 h2
      rw [List.getElem_zip, List.getElem_map, List.getElem_range]
      have hib : i < f.blocks := by
        rw [List.length_zip, hl2, hl3, Nat.min_self] at h1
        exact h1
      rcases hcounts i with ⟨hc1, hc2⟩
      rw [nth_replicate] at hc1 hc2
      rw [Prod.mk.injEq]
      constructor
      · rw [← nth_eq_getElem (by rw [hl2]; exact hib), hc1, Nat.zero_add]
        rfl
      · rw [← nth_eq_getElem (by rw [hl3]; exact hib), hc2, Nat.zero_add,
          sum_ite_range i _ f.blocks hib]
        rfl
  rw [hdep, hzip, specLoopDepths]
  exact loopDepthGo_spec _ [] 0 rfl

/-- Witness for C6 at a concrete successful intake (the two-block loop
`exOk`, whose depths are `[0, 1]`). -/
theorem C6_approx_loop_depth_witness :
    (CFGInfo.mk [ProgPoint.before 0, ProgPoint.before 1]
        [ProgPoint.after 0, ProgPoint.after 1] [0, 1] [0, 1]
        [ProgPoint.before 1]).approx_loop_depth = specLoopDepths exOk :=
  C6_approx_loop_depth exOk _ (by decide) (by decide)

/-! ## CFG intake: the `pred_pos` table -/

theorem length_gt_one_of_two_mem {l : List Nat} {a c : Nat}
    (ha : a ∈ l) (hc : c ∈ l) (h : a ≠ c) : l.length > 1 := by
  cases l with
  | nil => simp at ha
  | cons x xs =>
    cases xs with
    | nil =>
      simp at ha hc
      exact absurd (ha.trans hc.symm) h
    | cons y ys => simp

theorem eq_singleton_of_mem_of_length {l : List Nat} {b : Nat}
    (hm : b ∈ l) (hl : l.length = 1) : l = [b] := by
  cases l with
  | nil => simp at hm
  | cons x xs =>
    cases xs with
    | nil =>
      simp at hm
      rw [hm]
    | cons y ys => simp at hl

theorem critEdgeGo_pp {f : Func} {b : Nat} :
    ∀ (l : List Nat) (i : Nat) (pp pp' : List Nat),
    critEdgeGo f b i l pp = .ok pp' → (∀ p ∈ l, p < pp.length) →
    ∀ v, (nth pp' v = nth pp v ∧ v ∉ l) ∨
      (∃ j, nth pp' v = i + j ∧ l[j]? = some v) := by
  intro l
  induction l with
  | nil =>
    intro i pp pp' h _ v
    rw [critEdgeGo] at h
    exact Or.inl ⟨by rw [← Except.ok.inj h], List.not_mem_nil v⟩
  | cons q rest ih =>
    intro i pp pp' h hrange v
    rw [critEdgeGo] at h
    by_cases hq : (f.block_succs q).length > 1
    · rw [if_pos hq] at h; cases h
    · rw [if_neg hq] at h
      have hr : ∀ p ∈ rest, p < (pp.set q i).length := by
        intro p hp
        rw [List.length_set]
        exact hrange p (List.mem_cons_of_mem _ hp)
      rcases ih (i + 1) (pp.set q i) pp' h hr v with ⟨heq, hnm⟩ | ⟨j, hj1, hj2⟩
      · by_cases hv : v = q
        · subst hv
          refine Or.inr ⟨0, ?_, by simp⟩
          rw [heq, nth_set_self (hrange v (List.mem_cons_self _ _))]
          omega
        · refine Or.inl ⟨by rw [heq, nth_set_ne hv], ?_⟩
          intro hmem
          rcases List.mem_cons.1 hmem with h' | h'
          · exact hv h'
          · exact hnm h'
      · refine Or.inr ⟨j + 1, by rw [hj1]; omega, by simpa using hj2⟩

theorem blocksLoop_predpos {f : Func} :
    ∀ (bs done : List Nat) (pp bin bout pp' bin' bout' : List Nat),
    blocksLoop f bs (pp, bin, bout) = .ok (pp', bin', bout') →
    FuncInRange f → pp.length = f.blocks →
    (∀ b ∈ bs, b < f.blocks) →
    (∀ v, (nth pp v = 0 ∧ ∀ S, S ∈ done → predCount f S > 1 → v ∉ f.block_preds S) ∨
      (∃ S, S ∈ done ∧ predCount f S > 1 ∧
        (f.block_preds S)[nth pp v]? = some v)) →
    (∀ v, (nth pp' v = 0 ∧ ∀ S, (S ∈ done ∨ S ∈ bs) → predCount f S > 1 →
        v ∉ f.block_preds S) ∨
      (∃ S, (S ∈ done ∨ S ∈ bs) ∧ predCount f S > 1 ∧
        (f.block_preds S)[nth pp' v]? = some v)) := by
  intro bs
  induction bs with
  | nil =>
    intro done pp bin bout pp' bin' bout' h _ _ _ hInv v
    rw [blocksLoop] at h
    have h4 := Except.ok.inj h
    rw [Prod.mk.injEq] at h4
    obtain ⟨e1, _⟩ := h4
    rcases hInv v with ⟨h0, hall⟩ | ⟨S, hS, hpc, hget⟩
    · refine Or.inl ⟨by rw [← e1]; exact h0, ?_⟩
      rintro S (hS | hS) hpc
      · exact hall S hS hpc
      · simp at hS
    · exact Or.inr ⟨S, Or.inl hS, hpc, by rw [← e1]; exact hget⟩
  | cons b rest ih =>
    intro done pp bin bout pp' bin' bout' h hR hlen hbs hInv
    rw [blocksLoop] at h
    rcases hstep : blockStep f (pp, bin, bout) b with e' | ⟨pp1, bin1, bout1⟩
    · rw [hstep] at h; cases h
    · rw [hstep] at h
      simp only at h
      rcases blockStep_ok_parts hstep with ⟨_, _, hcrit⟩
      have hlen1 : pp1.length = f.blocks := by
        rcases hcrit with ⟨_, hc⟩ | ⟨_, rfl⟩
        · rw [critEdgeGo_ok_length 0 _ pp pp1 hc, hlen]
        · exact hlen
      have hInv1 : ∀ v, (nth pp1 v = 0 ∧ ∀ S, S ∈ b :: done → predCount f S > 1 →
          v ∉ f.block_preds S) ∨
          (∃ S, S ∈ b :: done ∧ predCount f S > 1 ∧
            (f.block_preds S)[nth pp1 v]? = some v) := by
        intro v
        rcases hcrit with ⟨hpc, hc⟩ | ⟨hnpc, rfl⟩
        · have hrange : ∀ p ∈ f.block_preds b, p < pp.length := by
            intro p hp
            rw [hlen]
            exact (hR b (hbs b (List.mem_cons_self _ _))).1 p hp
          rcases critEdgeGo_pp (f.block_preds b) 0 pp pp1 hc hrange v
            with ⟨heq, hnm⟩ | ⟨j, hj1, hj2⟩
          · rcases hInv v with ⟨h0, hall⟩ | ⟨S, hS, hpc', hget⟩
            · refine Or.inl ⟨by rw [heq]; exact h0, ?_⟩
              rintro S hS hpc'
              rcases List.mem_cons.1 hS with rfl | hS'
              · exact hnm
              · exact hall S hS' hpc'
            · exact Or.inr ⟨S, List.mem_cons_of_mem _ hS, hpc',
                by rw [heq]; exact hget⟩
          · refine Or.inr ⟨b, List.mem_cons_self _ _, hpc, ?_⟩
            rw [hj1, Nat.zero_add]
            exact hj2
        · rcases hInv v with ⟨h0, hall⟩ | ⟨S, hS, hpc', hget⟩
          · refine Or.inl ⟨h0, ?_⟩
            rintro S hS hpc'
            rcases List.mem_cons.1 hS with rfl | hS'
            · exact absurd hpc' hnpc
            · exact hall S hS' hpc'
          · exact Or.inr ⟨S, List.mem_cons_of_mem _ hS, hpc', hget⟩
      have hfin := ih (b :: done) pp1 bin1 bout1 pp' bin' bout' h hR hlen1
        (fun c hc => hbs c (List.mem_cons_of_mem _ hc)) hInv1
      intro v
      rcases hfin v with ⟨h0, hall⟩ | ⟨S, hS, hpc', hget⟩
      · refine Or.inl ⟨h0, ?_⟩
        rintro S hS hpc'
        refine hall S ?_ hpc'
        rcases hS with hS | hS
        · exact Or.inl (List.mem_cons_of_mem _ hS)
        · rcases List.mem_cons.1 hS with rfl | hS'
          · exact Or.inl (List.mem_cons_self _ _)
          · exact Or.inr hS'
      · refine Or.inr ⟨S, ?_, hpc', hget⟩
        rcases hS with hS | hS
        · rcases List.mem_cons.1 hS with rfl | hS'
          · exact Or.inr (List.mem_cons_self _ _)
          · exact Or.inl hS'
        · exact Or.inr (List.mem_cons_of_mem _ hS)

/-- C8: on a successful intake, for every block `B` and every successor
`S` of `B`, `block_preds(S)[pred_position(B)] = B`; and when `B` has more
than one successor, `pred_position(B) = 0` and each successor of `B` has
exactly one predecessor.  Requires the input's predecessor/successor lists
to be in range and mutually coherent. -/
theorem C8_pred_pos (f : Func) (info : CFGInfo) (hR : FuncInRange f)
    (hC : FuncCoherent f) (h : CFGInfo.new f = .ok (some info))
    (b s : Nat) (hb : b < f.blocks) (hs : s ∈ f.block_succs b) :
    (f.block_preds s)[info.pred_position b]? = some b ∧
    ((f.block_succs b).length > 1 →
      info.pred_position b = 0 ∧ (f.block_preds s).length = 1) := by
  rcases new_ok_some_parts h with ⟨pp, bin, bout, hbl, _, hpp, _, _⟩
  have hNV := blocksLoop_ok_no_viol (List.range f.blocks) _ _ hbl
  have hInv := blocksLoop_predpos (List.range f.blocks) [] (List.replicate f.blocks 0)
    (List.replicate f.blocks 0) (List.replicate f.blocks 0) pp bin bout hbl hR
    (List.length_replicate _ _) (fun c hc => List.mem_range.1 hc)
    (fun v => Or.inl ⟨nth_replicate _ _, fun S hS => absurd hS (List.not_mem_nil S)⟩)
  have hpos : info.pred_position b = nth pp b := by
    rw [CFGInfo.pred_position, hpp]
  have hsblocks : s < f.blocks := (hR b hb).2 s hs
  have hbp : b ∈ f.block_preds s := (hC b hb s hsblocks).1 hs
  rcases hInv b with ⟨h0, hall⟩ | ⟨S, hSmem, hSpc, hSget⟩
  · have hps : ¬ predCount f s > 1 := by
      intro hpc
      exact hall s (Or.inr (List.mem_range.2 hsblocks)) hpc hbp
    have hle : (f.block_preds s).length ≤ predCount f s := Nat.le_add_right _ _
    have hge : 0 < (f.block_preds s).length := List.length_pos_of_mem hbp
    have hlen1 : (f.block_preds s).length = 1 := by omega
    have hsingle : f.block_preds s = [b] := eq_singleton_of_mem_of_length hbp hlen1
    constructor
    · rw [hpos, h0, hsingle]
      rfl
    · intro _
      exact ⟨by rw [hpos, h0], hlen1⟩
  · have hSrange : S < f.blocks := by
      rcases hSmem with h' | h'
      · simp at h'
      · exact List.mem_range.1 h'
    have hbpS : b ∈ f.block_preds S := List.getElem?_mem hSget
    have hSsucc : S ∈ f.block_succs b := (hC b hb S hSrange).2 hbpS
    by_cases hq : S = s
    · subst hq
      constructor
      · rw [hpos]
        exact hSget
      · intro hgt
        exact absurd hgt ((hNV S (List.mem_range.2 hSrange)).1 hSpc b hbpS)
    · exfalso
      have hlen : (f.block_succs b).length > 1 := length_gt_one_of_two_mem hSsucc hs hq
      exact (hNV S (List.mem_range.2 hSrange)).1 hSpc b hbpS hlen

/-- Witness for C8 at the concrete two-block loop `exOk` (block 0's sole
successor is block 1 and `pred_pos[0] = 0` indexes block 0 in block 1's
predecessor list). -/
theorem C8_pred_pos_witness :
    (exOk.block_preds 1)[(CFGInfo.mk [ProgPoint.before 0, ProgPoint.before 1]
          [ProgPoint.after 0, ProgPoint.after 1] [0, 1] [0, 1]
          [ProgPoint.before 1]).pred_position 0]? = some 0 ∧
    ((exOk.block_succs 0).length > 1 →
      (CFGInfo.mk [ProgPoint.before 0, ProgPoint.before 1]
          [ProgPoint.after 0, ProgPoint.after 1] [0, 1] [0, 1]
          [ProgPoint.before 1]).pred_position 0 = 0 ∧
        (exOk.block_preds 1).length = 1) :=
  C8_pred_pos exOk _ (by decide) (by decide) (by decide) 0 1 (by decide) (by decide)
